import Mathlib

/-!
Shallow embedding of `main_utils.py` (time-series photometry pipeline,
master-calibration cache orchestrator) and proofs about its cache policy.

The embedding models:
  * the filesystem as a finite association list from path strings to file
    contents (`Fs`);
  * Python dict lookup/assignment on string keys (`lookupA`, `setA`);
  * `os.path.basename` and the extension component of `os.path.splitext`
    (`pyBasename`, `pyExt`), following CPython's `posixpath` algorithm;
  * the function `main(fconfig, rereduce, verbose)` of `main_utils.py`,
    lines 78-123, as `MainUtils.main`, with an explicit event trace of the
    pickle loads, raw-file reads, builder calls and pickle dumps it performs;
  * the `if __name__ == '__main__'` block, lines 143-152, as
    `MainUtils.cliMain`.

Python `None` appearing as a value of `master_ccddata` is modelled by `none`
in `Option Artifact`; a pickle file on disk holds an `Option Artifact` so that
a file containing a pickled `None` round-trips faithfully.
-/

set_option autoImplicit false
set_option linter.unnecessarySeqFocus false

namespace MainUtils

/-- An opaque master-calibration artifact (the result of
`utils.create_master_calib`); the orchestrator never inspects it. -/
structure Artifact where
  id : Nat
deriving DecidableEq, Repr

/-- An opaque in-memory raw dataset (the result of `utils.spe_to_dict`). -/
structure RawDataset where
  id : Nat
deriving DecidableEq, Repr

/-- Content of one file in the modelled filesystem: a pickle file holding a
serialized value (`none` models a pickled Python `None`), a readable raw SPE
exposure file, or bytes that neither unpickle nor parse as SPE. -/
inductive FData where
  | pkl (v : Option Artifact)
  | raw (d : RawDataset)
  | corrupt
deriving DecidableEq, Repr

/-- The filesystem: a finite map from paths to file contents.  A path not in
the list is a file that does not exist. -/
abbrev Fs := List (String × FData)

/-- First-match lookup in an association list (Python dict read `m[k]` for a
dict modelled with unique keys). -/
def lookupA {α : Type} (k : String) : List (String × α) → Option α
  | [] => none
  | (k', v) :: t => if k' = k then some v else lookupA k t

/-- Association-list update (Python dict assignment `m[k] = v`): replaces the
first binding of `k` in place, or appends a new binding at the end. -/
def setA {α : Type} (k : String) (v : α) : List (String × α) → List (String × α)
  | [] => [(k, v)]
  | (k', v') :: t => if k' = k then (k', v) :: t else (k', v') :: setA k v t

/-- `os.path.isfile`: in this model, a path is a file iff it is bound in the
filesystem map. -/
def isfile (fs : Fs) (p : String) : Bool :=
  (lookupA p fs).isSome

/-- `os.path.basename`: the part of the path after the last `'/'`
(CPython `posixpath.basename`, `p[p.rfind('/')+1:]`). -/
def pyBasename (p : String) : String :=
  ⟨(p.data.reverse.takeWhile (fun c => c ≠ '/')).reverse⟩

/-- The extension component of `os.path.splitext p` (CPython `posixpath`):
nonempty iff the basename contains a dot preceded, within the basename, by at
least one non-dot character; in that case it runs from the last dot to the end.
Since `basename` is idempotent this also models line 82's
`os.path.splitext(os.path.basename(p))`. -/
def pyExt (p : String) : String :=
  let b := (p.data.reverse.takeWhile (fun c => c ≠ '/')).reverse
  let rest := b.dropWhile (fun c => c = '.')
  if rest.any (fun c => c = '.') then
    ⟨'.' :: (b.reverse.takeWhile (fun c => c ≠ '.')).reverse⟩
  else ""

/-- Lexicographic comparison of character lists by code point (the order
Python uses to compare strings). -/
def ltCh : List Char → List Char → Bool
  | [], [] => false
  | [], _ :: _ => true
  | _ :: _, [] => false
  | a :: as, b :: bs =>
    if a.toNat < b.toNat then true
    else if b.toNat < a.toNat then false
    else ltCh as bs

/-- Python's `<` on strings: lexicographic by code point. -/
def strLt (a b : String) : Bool :=
  ltCh a.data b.data

/-- Insert a string into a lexicographically ascending list. -/
def insertSorted (x : String) : List String → List String
  | [] => [x]
  | y :: t => if strLt x y then x :: y :: t else y :: insertSorted x t

/-- Python `sorted` on a list of strings (insertion sort by the lexicographic
order on code points, which coincides with `String.lt`). -/
def pySorted : List String → List String
  | [] => []
  | x :: t => insertSorted x (pySorted t)

/-- `sorted(d)` for a dict `d`: its distinct keys in sorted order. -/
def sortedKeys {α : Type} (m : List (String × α)) : List String :=
  pySorted (m.map Prod.fst).dedup

/-- One observable action of `main`: a pickle load of a master file (lines
86-87), a raw-file read via `utils.spe_to_dict` (lines 97 and 112), a builder
call via `utils.create_master_calib` (lines 98 and 113), or a pickle dump to a
master file (lines 105-106 and 120-121).  Each event is tagged with the
category (`imtype`) being processed. -/
inductive Ev where
  | load (imtype : String) (path : String)
  | rawRead (imtype : String) (path : String)
  | build (imtype : String)
  | dump (imtype : String) (path : String)
deriving DecidableEq, Repr

/-- A Python exception escaping `main` or the `__main__` block. -/
inductive PyErr where
  | typeErrorNonePath
  | keyError (k : String)
  | unpickleError (p : String)
  | speReadError (p : String)
  | typeErrorBadKeyword (k : String)
  | typeErrorMissingArg
  | ioErrorConfig (p : String)
deriving DecidableEq, Repr

/-- Execution state of `main`: the filesystem, the dict `master_ccddata`
(the Artifact Cache; a value `none` is Python `None`), and the trace of
events so far. -/
structure St where
  fs : Fs
  cache : List (String × Option Artifact)
  evs : List Ev
deriving DecidableEq, Repr

/-- A failing computation carries the events performed before the exception
was raised, and the exception. -/
abbrev Fail := List Ev × PyErr

/-- Modelled from the spec: `utils.spe_to_dict` (the Raw Reader collaborator)
is not among the sources; per the spec it returns an in-memory raw dataset and
"fails if the path is unreadable or malformed".  Here it succeeds exactly on
existing files holding raw SPE data. -/
def spe_to_dict (fs : Fs) (p : String) : Except PyErr RawDataset :=
  match lookupA p fs with
  | some (FData.raw d) => .ok d
  | _ => .error (.speReadError p)

/-- Lines 81-89 for one `imtype`: read `master_fpath[imtype]`, compute the
extension of its basename (line 82; `os.path.basename(None)` raises a
`TypeError` when the configured path is JSON `null`), and either unpickle the
master file into the cache or set the cache entry to `None`. -/
def loadStep (master_fpath : List (String × Option String)) (s : St)
    (imtype : String) : Except Fail St :=
  match lookupA imtype master_fpath with
  | none => .error (s.evs, .keyError imtype)
  | some none => .error (s.evs, .typeErrorNonePath)
  | some (some mfpath) =>
    if pyExt mfpath = ".pkl" then
      match lookupA mfpath s.fs with
      | some (FData.pkl v) =>
        .ok { s with cache := s.cache ++ [(imtype, v)],
                     evs := s.evs ++ [Ev.load imtype mfpath] }
      | some _ =>
        .error (s.evs ++ [Ev.load imtype mfpath], PyErr.unpickleError mfpath)
      | none => .ok { s with cache := s.cache ++ [(imtype, none)] }
    else .ok { s with cache := s.cache ++ [(imtype, none)] }

/-- The loop at lines 80-89 over a list of categories. -/
def loadLoop (master_fpath : List (String × Option String)) (s : St) :
    List String → Except Fail St
  | [] => .ok s
  | k :: ks =>
    match loadStep master_fpath s k with
    | .ok s' => loadLoop master_fpath s' ks
    | .error f => .error f

/-- Lines 92-106 for one `imtype`: if `master_ccddata[imtype] is None`, look
up the raw-input path (line 93 raises `KeyError` when the category has no
`calib` entry), and if that file exists, read it, build the master frame, and
write it through to the master path when one is configured with the `.pkl`
extension. -/
def buildStep (create_master_calib : RawDataset → Artifact)
    (master_fpath : List (String × Option String))
    (calib_fpath : List (String × String)) (s : St) (imtype : String) :
    Except Fail St :=
  match lookupA imtype s.cache with
  | none => .error (s.evs, .keyError imtype)
  | some (some _) => .ok s
  | some none =>
    match lookupA imtype calib_fpath with
    | none => .error (s.evs, .keyError imtype)
    | some cfpath =>
      match lookupA cfpath s.fs with
      | none => .ok s
      | some (FData.raw d) =>
        let a := create_master_calib d
        let s' : St := { s with cache := setA imtype (some a) s.cache,
                                evs := s.evs ++ [Ev.rawRead imtype cfpath, Ev.build imtype] }
        match lookupA imtype master_fpath with
        | none => .error (s'.evs, .keyError imtype)
        | some none => .ok s'
        | some (some mfpath) =>
          if pyExt mfpath = ".pkl" then
            .ok { s' with fs := setA mfpath (FData.pkl (some a)) s'.fs,
                          evs := s'.evs ++ [Ev.dump imtype mfpath] }
          else .ok s'
      | some _ =>
        .error (s.evs ++ [Ev.rawRead imtype cfpath], PyErr.speReadError cfpath)

/-- The loop at lines 91-106 over a list of categories. -/
def buildLoop (create_master_calib : RawDataset → Artifact)
    (master_fpath : List (String × Option String))
    (calib_fpath : List (String × String)) (s : St) :
    List String → Except Fail St
  | [] => .ok s
  | k :: ks =>
    match buildStep create_master_calib master_fpath calib_fpath s k with
    | .ok s' => buildLoop create_master_calib master_fpath calib_fpath s' ks
    | .error f => .error f

/-- Lines 108-121 for one `imtype` (executed only when `rereduce` is true):
read the raw-input file unconditionally (line 112 has no `isfile` guard),
rebuild, then look up the master path (line 114 raises `KeyError` when the
category has no `master` entry) and write through when it is a configured
`.pkl` path. -/
def rereduceStep (create_master_calib : RawDataset → Artifact)
    (master_fpath : List (String × Option String))
    (calib_fpath : List (String × String)) (s : St) (imtype : String) :
    Except Fail St :=
  match lookupA imtype calib_fpath with
  | none => .error (s.evs, .keyError imtype)
  | some cfpath =>
    match lookupA cfpath s.fs with
    | some (FData.raw d) =>
      let a := create_master_calib d
      let s' : St := { s with cache := setA imtype (some a) s.cache,
                              evs := s.evs ++ [Ev.rawRead imtype cfpath, Ev.build imtype] }
      match lookupA imtype master_fpath with
      | none => .error (s'.evs, .keyError imtype)
      | some none => .ok s'
      | some (some mfpath) =>
        if pyExt mfpath = ".pkl" then
          .ok { s' with fs := setA mfpath (FData.pkl (some a)) s'.fs,
                        evs := s'.evs ++ [Ev.dump imtype mfpath] }
        else .ok s'
    | _ =>
      .error (s.evs ++ [Ev.rawRead imtype cfpath], PyErr.speReadError cfpath)

/-- The loop at lines 107-121 over a list of categories. -/
def rereduceLoop (create_master_calib : RawDataset → Artifact)
    (master_fpath : List (String × Option String))
    (calib_fpath : List (String × String)) (s : St) :
    List String → Except Fail St
  | [] => .ok s
  | k :: ks =>
    match rereduceStep create_master_calib master_fpath calib_fpath s k with
    | .ok s' => rereduceLoop create_master_calib master_fpath calib_fpath s' ks
    | .error f => .error f

deriving instance DecidableEq for Except

/-- The outcome of one invocation of `main`: the trace of events performed,
and either the final Artifact Cache and filesystem, or the exception raised. -/
structure Run where
  evs : List Ev
  result : Except PyErr (List (String × Option Artifact) × Fs)
deriving DecidableEq, Repr

/-- `main(fconfig, rereduce, verbose)`, lines 78-123, with the configuration
file already decoded into the two maps `master_fpath = config['master']` and
`calib_fpath = config['calib']`, and the builder collaborator
`create_master_calib` passed explicitly. -/
def main (create_master_calib : RawDataset → Artifact)
    (master_fpath : List (String × Option String))
    (calib_fpath : List (String × String)) (rereduce : Bool) (fs0 : Fs) : Run :=
  let s0 : St := { fs := fs0, cache := [], evs := [] }
  match loadLoop master_fpath s0 (sortedKeys master_fpath) with
  | .error (evs, e) => ⟨evs, .error e⟩
  | .ok s1 =>
    match buildLoop create_master_calib master_fpath calib_fpath s1
        (sortedKeys master_fpath) with
    | .error (evs, e) => ⟨evs, .error e⟩
    | .ok s2 =>
      if rereduce then
        match rereduceLoop create_master_calib master_fpath calib_fpath s2
            (sortedKeys calib_fpath) with
        | .error (evs, e) => ⟨evs, .error e⟩
        | .ok s3 => ⟨s3.evs, .ok (s3.cache, s3.fs)⟩
      else ⟨s2.evs, .ok (s2.cache, s2.fs)⟩

/-- Parsed command-line arguments of the `__main__` block. -/
structure Args where
  fconfig : String
  rereduce : Bool
  verbose : Nat
deriving DecidableEq, Repr

/-- Python 2's builtin `sorted` invoked with keyword arguments only, as in
`sorted(**kwargs)`: a keyword other than `cmp`, `key` or `reverse` raises a
`TypeError` naming it; with only valid keywords it still raises a `TypeError`
because the required positional iterable is missing. -/
def sortedKwOnly (kwargs : List String) : Except PyErr (List String) :=
  match kwargs.find? (fun k => !(k == "cmp" || k == "key" || k == "reverse")) with
  | some k => .error (.typeErrorBadKeyword k)
  | none => .error .typeErrorMissingArg

/-- The `__main__` block, lines 143-152: check that the configuration file
exists and has the `.json` extension (raising `IOError` otherwise), then
evaluate `main(sorted(**args.__dict__))`.  `args.__dict__` has the keys
`fconfig`, `rereduce` and `verbose`.  An `.ok` result would mean `main` was
entered. -/
def cliMain (fs0 : Fs) (args : Args) : Except PyErr Unit :=
  if isfile fs0 args.fconfig = false then .error (.ioErrorConfig args.fconfig)
  else if pyExt args.fconfig ≠ ".json" then .error (.ioErrorConfig args.fconfig)
  else
    match sortedKwOnly ["fconfig", "rereduce", "verbose"] with
    | .error e => .error e
    | .ok _ => .ok ()

/-- A concrete injective builder used in the concrete runs below. -/
def demoBuild : RawDataset → Artifact :=
  fun d => ⟨d.id⟩

/-- The category a trace event is tagged with. -/
def evTag : Ev → String
  | .load k _ => k
  | .rawRead k _ => k
  | .build k => k
  | .dump k _ => k

/-- The value line 81-89 leave in `master_ccddata[k]`: the unpickled content
when the master path is a readable `.pkl` file, `None` otherwise. -/
def loadVal (master_fpath : List (String × Option String)) (fs : Fs)
    (k : String) : Option Artifact :=
  match lookupA k master_fpath with
  | some (some mfpath) =>
    if pyExt mfpath = ".pkl" then
      match lookupA mfpath fs with
      | some (FData.pkl v) => v
      | _ => none
    else none
  | _ => none

/-- The load pass does not raise for category `k`: the configured master path
is a string (not JSON `null`), and if it is a `.pkl` path, any file there is a
well-formed pickle. -/
def LoadOk (master_fpath : List (String × Option String)) (fs : Fs)
    (k : String) : Prop :=
  ∃ mfpath, lookupA k master_fpath = some (some mfpath) ∧
    (pyExt mfpath = ".pkl" →
      ∀ fd, lookupA mfpath fs = some fd → ∃ v, fd = FData.pkl v)

/-- Shape of the events the build and re-reduce passes append while handling
category `k`: tagged with `k`, never a pickle load, and any pickle dump
targets a `.pkl` path. -/
def StepEv (k : String) (e : Ev) : Prop :=
  evTag e = k ∧ (∀ j p, e ≠ Ev.load j p) ∧ ∀ j p, e = Ev.dump j p → pyExt p = ".pkl"

/-- The value the build pass (lines 91-106) leaves in `master_ccddata[k]`,
computed against a reference filesystem `F` whose raw-input (`calib`) entries
agree with the filesystem the pass actually reads: reuse a non-`None` cached
value, else build from the raw file when it is readable. -/
def bval (create_master_calib : RawDataset → Artifact)
    (calib_fpath : List (String × String)) (F : Fs)
    (f : String → Option Artifact) (k : String) : Option Artifact :=
  match f k with
  | some a => some a
  | none =>
    match lookupA k calib_fpath with
    | none => none
    | some cfpath =>
      match lookupA cfpath F with
      | some (FData.raw d) => some (create_master_calib d)
      | _ => none

/-- The pickle content the build pass writes to category `k`'s master path
(relative to the reference filesystem `F`), or `none` when `k` performs no
write. -/
def bwrites (create_master_calib : RawDataset → Artifact)
    (master_fpath : List (String × Option String))
    (calib_fpath : List (String × String)) (F : Fs)
    (f : String → Option Artifact) (k : String) : Option (Option Artifact) :=
  match f k with
  | some _ => none
  | none =>
    match lookupA k calib_fpath with
    | none => none
    | some cfpath =>
      match lookupA cfpath F with
      | some (FData.raw d) =>
        match lookupA k master_fpath with
        | some (some mfpath) =>
          if pyExt mfpath = ".pkl" then some (some (create_master_calib d))
          else none
        | _ => none
      | _ => none

theorem lookupA_append_of_some {α : Type} {k : String} {l1 l2 : List (String × α)}
    {v : α} (h : lookupA k l1 = some v) : lookupA k (l1 ++ l2) = some v := by
  induction l1 with
  | nil => simp [lookupA] at h
  | cons p t ih =>
    obtain ⟨k', v'⟩ := p
    simp only [lookupA, List.cons_append] at h ⊢
    split at h
    · simp [*]
    · simp only [*, if_false]
      exact ih h

theorem lookupA_append_of_none {α : Type} {k : String} {l1 : List (String × α)}
    (l2 : List (String × α)) (h : lookupA k l1 = none) :
    lookupA k (l1 ++ l2) = lookupA k l2 := by
  induction l1 with
  | nil => simp
  | cons p t ih =>
    obtain ⟨k', v'⟩ := p
    simp only [lookupA, List.cons_append] at h ⊢
    split at h
    · exact absurd h (by simp)
    · simp only [*, if_false]
      exact ih h

theorem lookupA_map_self {α : Type} (f : String → α) {ks : List String}
    {k : String} (h : k ∈ ks) :
    lookupA k (ks.map fun j => (j, f j)) = some (f k) := by
  induction ks with
  | nil => simp at h
  | cons j t ih =>
    rcases List.mem_cons.mp h with h' | h'
    · simp [lookupA, h']
    · by_cases hj : j = k
      · simp [lookupA, hj]
      · simp only [List.map_cons, lookupA, hj, if_false]
        exact ih h'

theorem lookupA_map_of_not_mem {α : Type} (f : String → α) {ks : List String}
    {k : String} (h : k ∉ ks) :
    lookupA k (ks.map fun j => (j, f j)) = none := by
  induction ks with
  | nil => rfl
  | cons j t ih =>
    have hj : j ≠ k := fun e => h (by simp [e])
    simp only [List.map_cons, lookupA, hj, if_false]
    exact ih (fun e => h (List.mem_cons.mpr (Or.inr e)))

theorem lookupA_setA_self {α : Type} (k : String) (v : α)
    (l : List (String × α)) : lookupA k (setA k v l) = some v := by
  induction l with
  | nil => simp [setA, lookupA]
  | cons p t ih =>
    obtain ⟨k', v'⟩ := p
    by_cases h : k' = k <;> simp [setA, lookupA, h, ih]

theorem lookupA_setA_ne {α : Type} {k k' : String} (v : α)
    (l : List (String × α)) (h : k' ≠ k) :
    lookupA k (setA k' v l) = lookupA k l := by
  induction l with
  | nil => simp [setA, lookupA, h]
  | cons p t ih =>
    obtain ⟨k'', v''⟩ := p
    by_cases h2 : k'' = k' <;> by_cases h3 : k'' = k <;>
      simp_all [setA, lookupA]

theorem setA_map_of_mem {α : Type} {f : String → α} {ks : List String}
    {k : String} (v : α) (hnd : ks.Nodup) (h : k ∈ ks) :
    setA k v (ks.map fun j => (j, f j)) =
      ks.map fun j => (j, if j = k then v else f j) := by
  induction ks with
  | nil => simp at h
  | cons j t ih =>
    have hnd' : t.Nodup := (List.nodup_cons.mp hnd).2
    by_cases hj : j = k
    · subst hj
      have hjt : j ∉ t := (List.nodup_cons.mp hnd).1
      simp only [List.map_cons, setA, if_pos rfl, if_true, ite_true]
      congr 1
      apply List.map_congr_left
      intro x hx
      have : x ≠ j := fun e => hjt (e ▸ hx)
      simp [this]
    · have ht : k ∈ t := by
        rcases List.mem_cons.mp h with h' | h'
        · exact absurd h'.symm hj
        · exact h'
      simp [setA, hj, ih hnd' ht]

theorem mem_keys_of_lookupA {α : Type} {k : String} {m : List (String × α)}
    {v : α} (h : lookupA k m = some v) : k ∈ m.map Prod.fst := by
  induction m with
  | nil => simp [lookupA] at h
  | cons p t ih =>
    obtain ⟨k', v'⟩ := p
    simp only [lookupA] at h
    split at h
    · simp [*]
    · simpa using Or.inr (ih h)

theorem lookupA_isSome_of_mem_keys {α : Type} {k : String}
    {m : List (String × α)} (h : k ∈ m.map Prod.fst) :
    ∃ v, lookupA k m = some v := by
  induction m with
  | nil => simp at h
  | cons p t ih =>
    obtain ⟨k', v'⟩ := p
    by_cases hk : k' = k
    · exact ⟨v', by simp [lookupA, hk]⟩
    · have : k ∈ t.map Prod.fst := by
        rcases List.mem_cons.mp h with h' | h'
        · exact absurd (by simpa using h'.symm) hk
        · exact h'
      obtain ⟨v, hv⟩ := ih this
      exact ⟨v, by simp [lookupA, hk, hv]⟩

theorem insertSorted_perm (x : String) (l : List String) :
    List.Perm (insertSorted x l) (x :: l) := by
  induction l with
  | nil => exact List.Perm.refl _
  | cons y t ih =>
    by_cases h : strLt x y = true
    · simp [insertSorted, h]
    · simp only [insertSorted, h, if_false]
      exact (ih.cons y).trans (List.Perm.swap x y t)

theorem pySorted_perm (l : List String) : List.Perm (pySorted l) l := by
  induction l with
  | nil => exact List.Perm.refl _
  | cons x t ih => exact (insertSorted_perm x (pySorted t)).trans (ih.cons x)

theorem mem_sortedKeys {α : Type} {m : List (String × α)} {k : String} :
    k ∈ sortedKeys m ↔ k ∈ m.map Prod.fst := by
  unfold sortedKeys
  rw [(pySorted_perm _).mem_iff, List.mem_dedup]

theorem sortedKeys_nodup {α : Type} (m : List (String × α)) :
    (sortedKeys m).Nodup :=
  (pySorted_perm _).symm.nodup (List.nodup_dedup _)

theorem loadStep_ok_char {m : List (String × Option String)} {s s' : St}
    {k : String} (h : loadStep m s k = .ok s') :
    s'.fs = s.fs ∧ s'.cache = s.cache ++ [(k, loadVal m s.fs k)] ∧
      ∃ l, s'.evs = s.evs ++ l ∧
        ∀ e ∈ l, ∃ p, e = Ev.load k p ∧ pyExt p = ".pkl" := by
  rcases hm : lookupA k m with _ | op
  · simp [loadStep, hm] at h
  · rcases op with _ | mfpath
    · simp [loadStep, hm] at h
    · by_cases hext : pyExt mfpath = ".pkl"
      · rcases hfs : lookupA mfpath s.fs with _ | fd
        · simp only [loadStep, hm, hext, if_true, hfs] at h
          cases h
          refine ⟨rfl, by simp [loadVal, hm, hext, hfs], [], by simp, by simp⟩
        · rcases fd with v | d | _
          · simp only [loadStep, hm, hext, if_true, hfs] at h
            cases h
            exact ⟨rfl, by simp [loadVal, hm, hext, hfs], [Ev.load k mfpath],
              by simp, by simp [hext]⟩
          · simp [loadStep, hm, hext, hfs] at h
          · simp [loadStep, hm, hext, hfs] at h
      · simp only [loadStep, hm, hext, if_false] at h
        cases h
        refine ⟨rfl, by simp [loadVal, hm, hext], [], by simp, by simp⟩

theorem loadStep_ok_LoadOk {m : List (String × Option String)} {s s' : St}
    {k : String} (h : loadStep m s k = .ok s') : LoadOk m s.fs k := by
  rcases hm : lookupA k m with _ | op
  · simp [loadStep, hm] at h
  · rcases op with _ | mfpath
    · simp [loadStep, hm] at h
    · refine ⟨mfpath, hm, fun hext fd hfd => ?_⟩
      rcases fd with v | d | _
      · exact ⟨v, rfl⟩
      · simp [loadStep, hm, hext, hfd] at h
      · simp [loadStep, hm, hext, hfd] at h

theorem loadStep_ok_of_LoadOk {m : List (String × Option String)} {s : St}
    {k : String} (h : LoadOk m s.fs k) : ∃ s', loadStep m s k = .ok s' := by
  obtain ⟨mfpath, hm, hp⟩ := h
  by_cases hext : pyExt mfpath = ".pkl"
  · rcases hfs : lookupA mfpath s.fs with _ | fd
    · refine ⟨?_, ?_⟩
      · exact { s with cache := s.cache ++ [(k, none)] }
      · simp [loadStep, hm, hext, hfs]
    · obtain ⟨v, rfl⟩ := hp hext fd hfs
      refine ⟨?_, ?_⟩
      · exact { s with cache := s.cache ++ [(k, v)], evs := s.evs ++ [Ev.load k mfpath] }
      · simp [loadStep, hm, hext, hfs]
  · refine ⟨?_, ?_⟩
    · exact { s with cache := s.cache ++ [(k, none)] }
    · simp [loadStep, hm, hext]

theorem loadStep_err_char {m : List (String × Option String)} {s : St}
    {k : String} {f : Fail} (h : loadStep m s k = .error f) :
    (f.1 = s.evs ∨ ∃ p, f.1 = s.evs ++ [Ev.load k p] ∧ pyExt p = ".pkl") ∧
      ∀ j, f.2 = .keyError j → j = k ∧ lookupA k m = none := by
  rcases hm : lookupA k m with _ | op
  · simp only [loadStep, hm] at h
    cases h
    exact ⟨Or.inl rfl, fun j hj => by cases hj; exact ⟨rfl, rfl⟩⟩
  · rcases op with _ | mfpath
    · simp only [loadStep, hm] at h
      cases h
      exact ⟨Or.inl rfl, fun j hj => by cases hj⟩
    · by_cases hext : pyExt mfpath = ".pkl"
      · rcases hfs : lookupA mfpath s.fs with _ | fd
        · simp [loadStep, hm, hext, hfs] at h
        · rcases fd with v | d | _
          · simp [loadStep, hm, hext, hfs] at h
          · simp only [loadStep, hm, hext, if_true, hfs] at h
            cases h
            exact ⟨Or.inr ⟨mfpath, rfl, hext⟩, fun j hj => by cases hj⟩
          · simp only [loadStep, hm, hext, if_true, hfs] at h
            cases h
            exact ⟨Or.inr ⟨mfpath, rfl, hext⟩, fun j hj => by cases hj⟩
      · simp [loadStep, hm, hext] at h

theorem loadStep_err_corrupt {m : List (String × Option String)} {s : St}
    {k p : String} (hm : lookupA k m = some (some p))
    (hext : pyExt p = ".pkl") (hfs : lookupA p s.fs = some FData.corrupt) :
    loadStep m s k = .error (s.evs ++ [Ev.load k p], .unpickleError p) := by
  simp [loadStep, hm, hext, hfs]

theorem loadLoop_ok_char {m : List (String × Option String)} {s s' : St}
    {ks : List String} (h : loadLoop m s ks = .ok s') :
    s'.fs = s.fs ∧
      s'.cache = s.cache ++ ks.map (fun k => (k, loadVal m s.fs k)) ∧
      ∃ l, s'.evs = s.evs ++ l ∧
        ∀ e ∈ l, evTag e ∈ ks ∧ ∃ k p, e = Ev.load k p ∧ pyExt p = ".pkl" := by
  induction ks generalizing s with
  | nil =>
    cases h
    exact ⟨rfl, by simp, [], by simp, by simp⟩
  | cons k t ih =>
    simp only [loadLoop] at h
    rcases hstep : loadStep m s k with f | s1
    · rw [hstep] at h
      cases h
    · rw [hstep] at h
      obtain ⟨hfs1, hc1, l1, he1, hl1⟩ := loadStep_ok_char hstep
      obtain ⟨hfs2, hc2, l2, he2, hl2⟩ := ih h
      refine ⟨hfs2.trans hfs1, ?_, l1 ++ l2, by rw [he2, he1, List.append_assoc], ?_⟩
      · rw [hc2, hc1, hfs1, List.append_assoc]
        simp
      · intro e he
        rcases List.mem_append.mp he with he' | he'
        · obtain ⟨p, rfl, hpe⟩ := hl1 e he'
          exact ⟨by simp [evTag], k, p, rfl, hpe⟩
        · obtain ⟨hmem, k', p, rfl, hpe⟩ := hl2 e he'
          refine ⟨?_, k', p, rfl, hpe⟩
          simp only [evTag] at hmem ⊢
          exact List.mem_cons.mpr (Or.inr hmem)

theorem loadLoop_ok_LoadOk {m : List (String × Option String)} {s s' : St}
    {ks : List String} (h : loadLoop m s ks = .ok s') :
    ∀ k ∈ ks, LoadOk m s.fs k := by
  induction ks generalizing s with
  | nil => intro k hk; simp at hk
  | cons k t ih =>
    intro j hj
    simp only [loadLoop] at h
    rcases hstep : loadStep m s k with f | s1
    · rw [hstep] at h; cases h
    · rw [hstep] at h
      rcases List.mem_cons.mp hj with hj' | hj'
      · exact hj' ▸ loadStep_ok_LoadOk hstep
      · have := ih h j hj'
        rwa [(loadStep_ok_char hstep).1] at this

theorem loadLoop_ok_of_LoadOk {m : List (String × Option String)} {s : St}
    {ks : List String} (h : ∀ k ∈ ks, LoadOk m s.fs k) :
    ∃ s', loadLoop m s ks = .ok s' := by
  induction ks generalizing s with
  | nil => exact ⟨s, rfl⟩
  | cons k t ih =>
    obtain ⟨s1, hs1⟩ := loadStep_ok_of_LoadOk (h k (by simp))
    have hfs : s1.fs = s.fs := (loadStep_ok_char hs1).1
    obtain ⟨s', hs'⟩ := @ih s1
      (fun j hj => hfs ▸ h j (List.mem_cons.mpr (Or.inr hj)))
    exact ⟨s', by simp only [loadLoop, hs1, hs']⟩

theorem loadLoop_err_char {m : List (String × Option String)} {s : St}
    {ks : List String} {f : Fail} (h : loadLoop m s ks = .error f) :
    (∃ l, f.1 = s.evs ++ l ∧
        ∀ e ∈ l, evTag e ∈ ks ∧ ∃ k p, e = Ev.load k p ∧ pyExt p = ".pkl") ∧
      ∀ j, f.2 = .keyError j → j ∈ ks ∧ lookupA j m = none := by
  induction ks generalizing s with
  | nil => cases h
  | cons k t ih =>
    simp only [loadLoop] at h
    rcases hstep : loadStep m s k with f1 | s1
    · rw [hstep] at h
      cases h
      obtain ⟨hevs, hke⟩ := loadStep_err_char hstep
      refine ⟨?_, fun j hj => ⟨by simp [(hke j hj).1], (hke j hj).1 ▸ (hke j hj).2⟩⟩
      rcases hevs with he | ⟨p, he, hpe⟩
      · exact ⟨[], by simp [he], by simp⟩
      · refine ⟨[Ev.load k p], by simp [he], ?_⟩
        intro e he'
        simp only [List.mem_singleton] at he'
        subst he'
        exact ⟨by simp [evTag], k, p, rfl, hpe⟩
    · rw [hstep] at h
      obtain ⟨hfs1, hc1, l1, he1, hl1⟩ := loadStep_ok_char hstep
      obtain ⟨⟨l2, he2, hl2⟩, hke⟩ := ih h
      refine ⟨⟨l1 ++ l2, by rw [he2, he1, List.append_assoc], ?_⟩,
        fun j hj => ⟨List.mem_cons.mpr (Or.inr (hke j hj).1), (hke j hj).2⟩⟩
      intro e he
      rcases List.mem_append.mp he with he' | he'
      · obtain ⟨p, rfl, hpe⟩ := hl1 e he'
        exact ⟨by simp [evTag], k, p, rfl, hpe⟩
      · obtain ⟨hmem, k', p, rfl, hpe⟩ := hl2 e he'
        exact ⟨List.mem_cons.mpr (Or.inr hmem), k', p, rfl, hpe⟩

theorem buildStep_skip {b : RawDataset → Artifact}
    {m : List (String × Option String)} {c : List (String × String)} {s : St}
    {k : String} {a : Artifact} (h : lookupA k s.cache = some (some a)) :
    buildStep b m c s k = .ok s := by
  simp [buildStep, h]

theorem buildStep_ok_cases {b : RawDataset → Artifact}
    {m : List (String × Option String)} {c : List (String × String)}
    {s s' : St} {k : String} (h : buildStep b m c s k = .ok s') :
    (∃ a, lookupA k s.cache = some (some a) ∧ s' = s) ∨
    (lookupA k s.cache = some none ∧ ∃ cp, lookupA k c = some cp ∧
      ((lookupA cp s.fs = none ∧ s' = s) ∨
       (∃ d, lookupA cp s.fs = some (FData.raw d) ∧
         s'.cache = setA k (some (b d)) s.cache ∧
         ((∃ mp, lookupA k m = some (some mp) ∧ pyExt mp = ".pkl" ∧
             s'.fs = setA mp (FData.pkl (some (b d))) s.fs ∧
             s'.evs = s.evs ++ [Ev.rawRead k cp, Ev.build k, Ev.dump k mp]) ∨
          (s'.fs = s.fs ∧ s'.evs = s.evs ++ [Ev.rawRead k cp, Ev.build k] ∧
            (lookupA k m = some none ∨
             ∃ mp, lookupA k m = some (some mp) ∧ pyExt mp ≠ ".pkl")))))) := by
  rcases hv : lookupA k s.cache with _ | (_ | a)
  · simp [buildStep, hv] at h
  · rcases hc : lookupA k c with _ | cp
    · simp [buildStep, hv, hc] at h
    · rcases hfs : lookupA cp s.fs with _ | fd
      · simp only [buildStep, hv, hc, hfs] at h
        cases h
        exact Or.inr ⟨rfl, cp, rfl, Or.inl ⟨hfs, rfl⟩⟩
      · rcases fd with v | d | _
        · simp [buildStep, hv, hc, hfs] at h
        · rcases hm : lookupA k m with _ | (_ | mp)
          · simp [buildStep, hv, hc, hfs, hm] at h
          · simp only [buildStep, hv, hc, hfs, hm] at h
            cases h
            exact Or.inr ⟨rfl, cp, rfl, Or.inr ⟨d, hfs, by simp,
              Or.inr ⟨rfl, by simp, Or.inl rfl⟩⟩⟩
          · by_cases hext : pyExt mp = ".pkl"
            · simp only [buildStep, hv, hc, hfs, hm, hext, if_true] at h
              cases h
              exact Or.inr ⟨rfl, cp, rfl, Or.inr ⟨d, hfs, by simp,
                Or.inl ⟨mp, rfl, hext, by simp, by simp⟩⟩⟩
            · simp only [buildStep, hv, hc, hfs, hm, hext, if_false] at h
              cases h
              exact Or.inr ⟨rfl, cp, rfl, Or.inr ⟨d, hfs, by simp,
                Or.inr ⟨rfl, by simp, Or.inr ⟨mp, rfl, hext⟩⟩⟩⟩
        · simp [buildStep, hv, hc, hfs] at h
  · cases @buildStep_skip b m c s k a hv ▸ h
    exact Or.inl ⟨a, rfl, rfl⟩

theorem buildStep_err_char {b : RawDataset → Artifact}
    {m : List (String × Option String)} {c : List (String × String)} {s : St}
    {k : String} {f : Fail} (h : buildStep b m c s k = .error f) :
    (∃ l, f.1 = s.evs ++ l ∧
      (l = [] ∨ (∃ cp, l = [Ev.rawRead k cp]) ∨
        ∃ cp, l = [Ev.rawRead k cp, Ev.build k])) ∧
      ∀ j, f.2 = .keyError j → j = k := by
  rcases hv : lookupA k s.cache with _ | (_ | a)
  · simp only [buildStep, hv] at h
    cases h
    exact ⟨⟨[], by simp, Or.inl rfl⟩, fun j hj => by cases hj; rfl⟩
  · rcases hc : lookupA k c with _ | cp
    · simp only [buildStep, hv, hc] at h
      cases h
      exact ⟨⟨[], by simp, Or.inl rfl⟩, fun j hj => by cases hj; rfl⟩
    · rcases hfs : lookupA cp s.fs with _ | fd
      · simp [buildStep, hv, hc, hfs] at h
      · rcases fd with v | d | _
        · simp only [buildStep, hv, hc, hfs] at h
          cases h
          exact ⟨⟨[Ev.rawRead k cp], by simp, Or.inr (Or.inl ⟨cp, rfl⟩)⟩,
            fun j hj => by cases hj⟩
        · rcases hm : lookupA k m with _ | (_ | mp)
          · simp only [buildStep, hv, hc, hfs, hm] at h
            cases h
            exact ⟨⟨[Ev.rawRead k cp, Ev.build k], by simp,
              Or.inr (Or.inr ⟨cp, rfl⟩)⟩, fun j hj => by cases hj; rfl⟩
          · simp [buildStep, hv, hc, hfs, hm] at h
          · by_cases hext : pyExt mp = ".pkl" <;>
              simp [buildStep, hv, hc, hfs, hm, hext] at h
        · simp only [buildStep, hv, hc, hfs] at h
          cases h
          exact ⟨⟨[Ev.rawRead k cp], by simp, Or.inr (Or.inl ⟨cp, rfl⟩)⟩,
            fun j hj => by cases hj⟩
  · rw [@buildStep_skip b m c s k a hv] at h
    cases h

theorem rereduceStep_ok_char {b : RawDataset → Artifact}
    {m : List (String × Option String)} {c : List (String × String)}
    {s s' : St} {k : String} (h : rereduceStep b m c s k = .ok s') :
    ∃ cp d, lookupA k c = some cp ∧ lookupA cp s.fs = some (FData.raw d) ∧
      s'.cache = setA k (some (b d)) s.cache ∧
      ((∃ mp, lookupA k m = some (some mp) ∧ pyExt mp = ".pkl" ∧
          s'.fs = setA mp (FData.pkl (some (b d))) s.fs ∧
          s'.evs = s.evs ++ [Ev.rawRead k cp, Ev.build k, Ev.dump k mp]) ∨
       (s'.fs = s.fs ∧ s'.evs = s.evs ++ [Ev.rawRead k cp, Ev.build k] ∧
         (lookupA k m = some none ∨
          ∃ mp, lookupA k m = some (some mp) ∧ pyExt mp ≠ ".pkl"))) := by
  rcases hc : lookupA k c with _ | cp
  · simp [rereduceStep, hc] at h
  · rcases hfs : lookupA cp s.fs with _ | fd
    · simp [rereduceStep, hc, hfs] at h
    · rcases fd with v | d | _
      · simp [rereduceStep, hc, hfs] at h
      · rcases hm : lookupA k m with _ | (_ | mp)
        · simp [rereduceStep, hc, hfs, hm] at h
        · simp only [rereduceStep, hc, hfs, hm] at h
          cases h
          exact ⟨cp, d, rfl, hfs, by simp, Or.inr ⟨rfl, by simp, Or.inl rfl⟩⟩
        · by_cases hext : pyExt mp = ".pkl"
          · simp only [rereduceStep, hc, hfs, hm, hext, if_true] at h
            cases h
            exact ⟨cp, d, rfl, hfs, by simp, Or.inl ⟨mp, rfl, hext, by simp, by simp⟩⟩
          · simp only [rereduceStep, hc, hfs, hm, hext, if_false] at h
            cases h
            exact ⟨cp, d, rfl, hfs, by simp, Or.inr ⟨rfl, by simp, Or.inr ⟨mp, rfl, hext⟩⟩⟩
      · simp [rereduceStep, hc, hfs] at h

theorem rereduceStep_err_char {b : RawDataset → Artifact}
    {m : List (String × Option String)} {c : List (String × String)} {s : St}
    {k : String} {f : Fail} (h : rereduceStep b m c s k = .error f) :
    (∃ l, f.1 = s.evs ++ l ∧
      (l = [] ∨ (∃ cp, l = [Ev.rawRead k cp]) ∨
        ∃ cp, l = [Ev.rawRead k cp, Ev.build k])) ∧
      ∀ j, f.2 = .keyError j → j = k := by
  rcases hc : lookupA k c with _ | cp
  · simp only [rereduceStep, hc] at h
    cases h
    exact ⟨⟨[], by simp, Or.inl rfl⟩, fun j hj => by cases hj; rfl⟩
  · rcases hfs : lookupA cp s.fs with _ | fd
    · simp only [rereduceStep, hc, hfs] at h
      cases h
      exact ⟨⟨[Ev.rawRead k cp], by simp, Or.inr (Or.inl ⟨cp, rfl⟩)⟩,
        fun j hj => by cases hj⟩
    · rcases fd with v | d | _
      · simp only [rereduceStep, hc, hfs] at h
        cases h
        exact ⟨⟨[Ev.rawRead k cp], by simp, Or.inr (Or.inl ⟨cp, rfl⟩)⟩,
          fun j hj => by cases hj⟩
      · rcases hm : lookupA k m with _ | (_ | mp)
        · simp only [rereduceStep, hc, hfs, hm] at h
          cases h
          exact ⟨⟨[Ev.rawRead k cp, Ev.build k], by simp,
            Or.inr (Or.inr ⟨cp, rfl⟩)⟩, fun j hj => by cases hj; rfl⟩
        · simp [rereduceStep, hc, hfs, hm] at h
        · by_cases hext : pyExt mp = ".pkl" <;>
            simp [rereduceStep, hc, hfs, hm, hext] at h
      · simp only [rereduceStep, hc, hfs] at h
        cases h
        exact ⟨⟨[Ev.rawRead k cp], by simp, Or.inr (Or.inl ⟨cp, rfl⟩)⟩,
          fun j hj => by cases hj⟩

theorem buildStep_ok_evs {b : RawDataset → Artifact}
    {m : List (String × Option String)} {c : List (String × String)}
    {s s' : St} {k : String} (h : buildStep b m c s k = .ok s') :
    ∃ l, s'.evs = s.evs ++ l ∧ ∀ e ∈ l, StepEv k e := by
  rcases buildStep_ok_cases h with ⟨a, _, rfl⟩ | ⟨_, cp, _, hcase⟩
  · exact ⟨[], by simp, by simp⟩
  · rcases hcase with ⟨_, rfl⟩ | ⟨d, _, _, hcase2⟩
    · exact ⟨[], by simp, by simp⟩
    · rcases hcase2 with ⟨mp, _, hext, _, hevs⟩ | ⟨_, hevs, _⟩
      · refine ⟨_, hevs, ?_⟩
        intro e he
        simp only [List.mem_cons, List.not_mem_nil, or_false] at he
        rcases he with rfl | rfl | rfl <;> simp [StepEv, evTag, hext]
      · refine ⟨_, hevs, ?_⟩
        intro e he
        simp only [List.mem_cons, List.not_mem_nil, or_false] at he
        rcases he with rfl | rfl <;> simp [StepEv, evTag]

theorem buildStep_err_evs {b : RawDataset → Artifact}
    {m : List (String × Option String)} {c : List (String × String)} {s : St}
    {k : String} {f : Fail} (h : buildStep b m c s k = .error f) :
    ∃ l, f.1 = s.evs ++ l ∧ ∀ e ∈ l, StepEv k e := by
  obtain ⟨⟨l, hl, hcase⟩, _⟩ := buildStep_err_char h
  refine ⟨l, hl, ?_⟩
  rcases hcase with rfl | ⟨cp, rfl⟩ | ⟨cp, rfl⟩ <;>
    (intro e he; simp only [List.mem_cons, List.not_mem_nil, or_false] at he)
  · rcases he with rfl | rfl <;> simp [StepEv, evTag]
  · rcases he with rfl | rfl <;> simp [StepEv, evTag]

theorem rereduceStep_ok_evs {b : RawDataset → Artifact}
    {m : List (String × Option String)} {c : List (String × String)}
    {s s' : St} {k : String} (h : rereduceStep b m c s k = .ok s') :
    ∃ l, s'.evs = s.evs ++ l ∧ ∀ e ∈ l, StepEv k e := by
  obtain ⟨cp, d, _, _, _, hcase⟩ := rereduceStep_ok_char h
  rcases hcase with ⟨mp, _, hext, _, hevs⟩ | ⟨_, hevs, _⟩
  · refine ⟨_, hevs, ?_⟩
    intro e he
    simp only [List.mem_cons, List.not_mem_nil, or_false] at he
    rcases he with rfl | rfl | rfl <;> simp [StepEv, evTag, hext]
  · refine ⟨_, hevs, ?_⟩
    intro e he
    simp only [List.mem_cons, List.not_mem_nil, or_false] at he
    rcases he with rfl | rfl <;> simp [StepEv, evTag]

theorem rereduceStep_err_evs {b : RawDataset → Artifact}
    {m : List (String × Option String)} {c : List (String × String)} {s : St}
    {k : String} {f : Fail} (h : rereduceStep b m c s k = .error f) :
    ∃ l, f.1 = s.evs ++ l ∧ ∀ e ∈ l, StepEv k e := by
  obtain ⟨⟨l, hl, hcase⟩, _⟩ := rereduceStep_err_char h
  refine ⟨l, hl, ?_⟩
  rcases hcase with rfl | ⟨cp, rfl⟩ | ⟨cp, rfl⟩ <;>
    (intro e he; simp only [List.mem_cons, List.not_mem_nil, or_false] at he)
  · rcases he with rfl | rfl <;> simp [StepEv, evTag]
  · rcases he with rfl | rfl <;> simp [StepEv, evTag]

theorem buildLoop_ok_evs {b : RawDataset → Artifact}
    {m : List (String × Option String)} {c : List (String × String)}
    {s s' : St} {ks : List String} (h : buildLoop b m c s ks = .ok s') :
    ∃ l, s'.evs = s.evs ++ l ∧ ∀ e ∈ l, ∃ k ∈ ks, StepEv k e := by
  induction ks generalizing s with
  | nil =>
    cases h
    exact ⟨[], by simp, by simp⟩
  | cons k t ih =>
    simp only [buildLoop] at h
    rcases hstep : buildStep b m c s k with f | s1
    · rw [hstep] at h; cases h
    · rw [hstep] at h
      obtain ⟨l1, he1, hl1⟩ := buildStep_ok_evs hstep
      obtain ⟨l2, he2, hl2⟩ := ih h
      refine ⟨l1 ++ l2, by rw [he2, he1, List.append_assoc], ?_⟩
      intro e he
      rcases List.mem_append.mp he with he' | he'
      · exact ⟨k, by simp, hl1 e he'⟩
      · obtain ⟨j, hj, hsh⟩ := hl2 e he'
        exact ⟨j, List.mem_cons.mpr (Or.inr hj), hsh⟩

theorem buildLoop_err_evs {b : RawDataset → Artifact}
    {m : List (String × Option String)} {c : List (String × String)}
    {s : St} {ks : List String} {f : Fail} (h : buildLoop b m c s ks = .error f) :
    (∃ l, f.1 = s.evs ++ l ∧ ∀ e ∈ l, ∃ k ∈ ks, StepEv k e) ∧
      ∀ j, f.2 = .keyError j → j ∈ ks := by
  induction ks generalizing s with
  | nil => cases h
  | cons k t ih =>
    simp only [buildLoop] at h
    rcases hstep : buildStep b m c s k with f1 | s1
    · rw [hstep] at h
      cases h
      obtain ⟨l, hl, hsh⟩ := buildStep_err_evs hstep
      obtain ⟨_, hke⟩ := buildStep_err_char hstep
      exact ⟨⟨l, hl, fun e he => ⟨k, by simp, hsh e he⟩⟩,
        fun j hj => by simp [hke j hj]⟩
    · rw [hstep] at h
      obtain ⟨l1, he1, hl1⟩ := buildStep_ok_evs hstep
      obtain ⟨⟨l2, he2, hl2⟩, hke⟩ := ih h
      refine ⟨⟨l1 ++ l2, by rw [he2, he1, List.append_assoc], ?_⟩,
        fun j hj => List.mem_cons.mpr (Or.inr (hke j hj))⟩
      intro e he
      rcases List.mem_append.mp he with he' | he'
      · exact ⟨k, by simp, hl1 e he'⟩
      · obtain ⟨j, hj, hsh⟩ := hl2 e he'
        exact ⟨j, List.mem_cons.mpr (Or.inr hj), hsh⟩

theorem rereduceLoop_ok_evs {b : RawDataset → Artifact}
    {m : List (String × Option String)} {c : List (String × String)}
    {s s' : St} {ks : List String} (h : rereduceLoop b m c s ks = .ok s') :
    ∃ l, s'.evs = s.evs ++ l ∧ ∀ e ∈ l, ∃ k ∈ ks, StepEv k e := by
  induction ks generalizing s with
  | nil =>
    cases h
    exact ⟨[], by simp, by simp⟩
  | cons k t ih =>
    simp only [rereduceLoop] at h
    rcases hstep : rereduceStep b m c s k with f | s1
    · rw [hstep] at h; cases h
    · rw [hstep] at h
      obtain ⟨l1, he1, hl1⟩ := rereduceStep_ok_evs hstep
      obtain ⟨l2, he2, hl2⟩ := ih h
      refine ⟨l1 ++ l2, by rw [he2, he1, List.append_assoc], ?_⟩
      intro e he
      rcases List.mem_append.mp he with he' | he'
      · exact ⟨k, by simp, hl1 e he'⟩
      · obtain ⟨j, hj, hsh⟩ := hl2 e he'
        exact ⟨j, List.mem_cons.mpr (Or.inr hj), hsh⟩

theorem rereduceLoop_err_evs {b : RawDataset → Artifact}
    {m : List (String × Option String)} {c : List (String × String)}
    {s : St} {ks : List String} {f : Fail}
    (h : rereduceLoop b m c s ks = .error f) :
    (∃ l, f.1 = s.evs ++ l ∧ ∀ e ∈ l, ∃ k ∈ ks, StepEv k e) ∧
      ∀ j, f.2 = .keyError j → j ∈ ks := by
  induction ks generalizing s with
  | nil => cases h
  | cons k t ih =>
    simp only [rereduceLoop] at h
    rcases hstep : rereduceStep b m c s k with f1 | s1
    · rw [hstep] at h
      cases h
      obtain ⟨l, hl, hsh⟩ := rereduceStep_err_evs hstep
      obtain ⟨_, hke⟩ := rereduceStep_err_char hstep
      exact ⟨⟨l, hl, fun e he => ⟨k, by simp, hsh e he⟩⟩,
        fun j hj => by simp [hke j hj]⟩
    · rw [hstep] at h
      obtain ⟨l1, he1, hl1⟩ := rereduceStep_ok_evs hstep
      obtain ⟨⟨l2, he2, hl2⟩, hke⟩ := ih h
      refine ⟨⟨l1 ++ l2, by rw [he2, he1, List.append_assoc], ?_⟩,
        fun j hj => List.mem_cons.mpr (Or.inr (hke j hj))⟩
      intro e he
      rcases List.mem_append.mp he with he' | he'
      · exact ⟨k, by simp, hl1 e he'⟩
      · obtain ⟨j, hj, hsh⟩ := hl2 e he'
        exact ⟨j, List.mem_cons.mpr (Or.inr hj), hsh⟩

theorem buildStep_cache_pres {b : RawDataset → Artifact}
    {m : List (String × Option String)} {c : List (String × String)}
    {s s' : St} {k : String} (h : buildStep b m c s k = .ok s') :
    ∀ j, j ≠ k → lookupA j s'.cache = lookupA j s.cache := by
  intro j hj
  rcases buildStep_ok_cases h with ⟨a, _, rfl⟩ | ⟨_, cp, _, hcase⟩
  · rfl
  · rcases hcase with ⟨_, rfl⟩ | ⟨d, _, hc, _⟩
    · rfl
    · rw [hc, lookupA_setA_ne _ _ (fun e => hj e.symm)]

theorem buildLoop_cache_pres {b : RawDataset → Artifact}
    {m : List (String × Option String)} {c : List (String × String)}
    {s s' : St} {ks : List String} (h : buildLoop b m c s ks = .ok s') :
    ∀ j, j ∉ ks → lookupA j s'.cache = lookupA j s.cache := by
  induction ks generalizing s with
  | nil => intro j _; cases h; rfl
  | cons k t ih =>
    intro j hj
    simp only [buildLoop] at h
    rcases hstep : buildStep b m c s k with f | s1
    · rw [hstep] at h; cases h
    · rw [hstep] at h
      have h1 : lookupA j s1.cache = lookupA j s.cache :=
        buildStep_cache_pres hstep j (fun e => hj (e ▸ List.mem_cons_self k t))
      rw [ih h j (fun e => hj (List.mem_cons.mpr (Or.inr e))), h1]

theorem buildLoop_keep_some {b : RawDataset → Artifact}
    {m : List (String × Option String)} {c : List (String × String)}
    {s s' : St} {ks : List String} {C : String} {a : Artifact}
    (h : buildLoop b m c s ks = .ok s')
    (hC : lookupA C s.cache = some (some a)) :
    lookupA C s'.cache = some (some a) := by
  induction ks generalizing s with
  | nil => cases h; exact hC
  | cons k t ih =>
    simp only [buildLoop] at h
    rcases hstep : buildStep b m c s k with f | s1
    · rw [hstep] at h; cases h
    · rw [hstep] at h
      by_cases hk : k = C
      · subst hk
        rw [buildStep_skip hC] at hstep
        cases hstep
        exact ih h hC
      · have h1 : lookupA C s1.cache = some (some a) := by
          rw [buildStep_cache_pres hstep C (fun e => hk e.symm), hC]
        exact ih h h1

theorem buildStep_fs_cases {b : RawDataset → Artifact}
    {m : List (String × Option String)} {c : List (String × String)}
    {s s' : St} {k : String} (h : buildStep b m c s k = .ok s') :
    s'.fs = s.fs ∨ ∃ mp a, lookupA k m = some (some mp) ∧ pyExt mp = ".pkl" ∧
      s'.fs = setA mp (FData.pkl (some a)) s.fs := by
  rcases buildStep_ok_cases h with ⟨a, _, rfl⟩ | ⟨_, cp, _, hcase⟩
  · exact Or.inl rfl
  · rcases hcase with ⟨_, rfl⟩ | ⟨d, _, _, hcase2⟩
    · exact Or.inl rfl
    · rcases hcase2 with ⟨mp, hm, hext, hfs, _⟩ | ⟨hfs, _, _⟩
      · exact Or.inr ⟨mp, b d, hm, hext, hfs⟩
      · exact Or.inl hfs

theorem rereduceStep_fs_cases {b : RawDataset → Artifact}
    {m : List (String × Option String)} {c : List (String × String)}
    {s s' : St} {k : String} (h : rereduceStep b m c s k = .ok s') :
    s'.fs = s.fs ∨ ∃ mp a, lookupA k m = some (some mp) ∧ pyExt mp = ".pkl" ∧
      s'.fs = setA mp (FData.pkl (some a)) s.fs := by
  obtain ⟨cp, d, _, _, _, hcase⟩ := rereduceStep_ok_char h
  rcases hcase with ⟨mp, hm, hext, hfs, _⟩ | ⟨hfs, _, _⟩
  · exact Or.inr ⟨mp, b d, hm, hext, hfs⟩
  · exact Or.inl hfs

theorem buildLoop_fs_pres {b : RawDataset → Artifact}
    {m : List (String × Option String)} {c : List (String × String)}
    {s s' : St} {ks : List String} (h : buildLoop b m c s ks = .ok s')
    {p : String}
    (hp : ∀ k ∈ ks, ∀ mp, lookupA k m = some (some mp) → pyExt mp = ".pkl" →
      mp ≠ p) :
    lookupA p s'.fs = lookupA p s.fs := by
  induction ks generalizing s with
  | nil => cases h; rfl
  | cons k t ih =>
    simp only [buildLoop] at h
    rcases hstep : buildStep b m c s k with f | s1
    · rw [hstep] at h; cases h
    · rw [hstep] at h
      have h1 : lookupA p s1.fs = lookupA p s.fs := by
        rcases buildStep_fs_cases hstep with hfs | ⟨mp, a, hm, hext, hfs⟩
        · rw [hfs]
        · rw [hfs, lookupA_setA_ne _ _ (hp k (List.mem_cons_self k t) mp hm hext)]
      rw [ih h (fun j hj => hp j (List.mem_cons.mpr (Or.inr hj))), h1]

theorem rereduceLoop_fs_pres {b : RawDataset → Artifact}
    {m : List (String × Option String)} {c : List (String × String)}
    {s s' : St} {ks : List String} (h : rereduceLoop b m c s ks = .ok s')
    {p : String}
    (hp : ∀ k ∈ ks, ∀ mp, lookupA k m = some (some mp) → pyExt mp = ".pkl" →
      mp ≠ p) :
    lookupA p s'.fs = lookupA p s.fs := by
  induction ks generalizing s with
  | nil => cases h; rfl
  | cons k t ih =>
    simp only [rereduceLoop] at h
    rcases hstep : rereduceStep b m c s k with f | s1
    · rw [hstep] at h; cases h
    · rw [hstep] at h
      have h1 : lookupA p s1.fs = lookupA p s.fs := by
        rcases rereduceStep_fs_cases hstep with hfs | ⟨mp, a, hm, hext, hfs⟩
        · rw [hfs]
        · rw [hfs, lookupA_setA_ne _ _ (hp k (List.mem_cons_self k t) mp hm hext)]
      rw [ih h (fun j hj => hp j (List.mem_cons.mpr (Or.inr hj))), h1]

theorem buildLoop_ok_evs_notC {b : RawDataset → Artifact}
    {m : List (String × Option String)} {c : List (String × String)}
    {s s' : St} {ks : List String} {C : String} {a : Artifact}
    (hC : lookupA C s.cache = some (some a))
    (h : buildLoop b m c s ks = .ok s') :
    ∃ l, s'.evs = s.evs ++ l ∧ ∀ e ∈ l, evTag e ≠ C := by
  induction ks generalizing s with
  | nil =>
    cases h
    exact ⟨[], by simp, by simp⟩
  | cons k t ih =>
    simp only [buildLoop] at h
    rcases hstep : buildStep b m c s k with f | s1
    · rw [hstep] at h; cases h
    · rw [hstep] at h
      by_cases hk : k = C
      · subst hk
        rw [buildStep_skip hC] at hstep
        cases hstep
        exact ih hC h
      · have hC1 : lookupA C s1.cache = some (some a) := by
          rw [buildStep_cache_pres hstep C (fun e => hk e.symm), hC]
        obtain ⟨l1, he1, hl1⟩ := buildStep_ok_evs hstep
        obtain ⟨l2, he2, hl2⟩ := ih hC1 h
        refine ⟨l1 ++ l2, by rw [he2, he1, List.append_assoc], ?_⟩
        intro e he
        rcases List.mem_append.mp he with he' | he'
        · rw [(hl1 e he').1]; exact hk
        · exact hl2 e he'

theorem buildLoop_err_evs_notC {b : RawDataset → Artifact}
    {m : List (String × Option String)} {c : List (String × String)}
    {s : St} {ks : List String} {C : String} {a : Artifact} {f : Fail}
    (hC : lookupA C s.cache = some (some a))
    (h : buildLoop b m c s ks = .error f) :
    ∃ l, f.1 = s.evs ++ l ∧ ∀ e ∈ l, evTag e ≠ C := by
  induction ks generalizing s with
  | nil => cases h
  | cons k t ih =>
    simp only [buildLoop] at h
    rcases hstep : buildStep b m c s k with f1 | s1
    · rw [hstep] at h
      cases h
      by_cases hk : k = C
      · subst hk
        rw [buildStep_skip hC] at hstep
        cases hstep
      · obtain ⟨l, hl, hsh⟩ := buildStep_err_evs hstep
        refine ⟨l, hl, ?_⟩
        intro e he
        rw [(hsh e he).1]
        exact hk
    · rw [hstep] at h
      by_cases hk : k = C
      · subst hk
        rw [buildStep_skip hC] at hstep
        cases hstep
        exact ih hC h
      · have hC1 : lookupA C s1.cache = some (some a) := by
          rw [buildStep_cache_pres hstep C (fun e => hk e.symm), hC]
        obtain ⟨l1, he1, hl1⟩ := buildStep_ok_evs hstep
        obtain ⟨l2, he2, hl2⟩ := ih hC1 h
        refine ⟨l1 ++ l2, by rw [he2, he1, List.append_assoc], ?_⟩
        intro e he
        rcases List.mem_append.mp he with he' | he'
        · rw [(hl1 e he').1]; exact hk
        · exact hl2 e he'

theorem buildLoop_err_keyError_not_some {b : RawDataset → Artifact}
    {m : List (String × Option String)} {c : List (String × String)}
    {s : St} {ks : List String} {C : String} {a : Artifact} {f : Fail}
    (hC : lookupA C s.cache = some (some a))
    (h : buildLoop b m c s ks = .error f) : f.2 ≠ .keyError C := by
  induction ks generalizing s with
  | nil => cases h
  | cons k t ih =>
    simp only [buildLoop] at h
    rcases hstep : buildStep b m c s k with f1 | s1
    · rw [hstep] at h
      cases h
      by_cases hk : k = C
      · subst hk
        rw [buildStep_skip hC] at hstep
        cases hstep
      · intro hke
        exact hk ((buildStep_err_char hstep).2 C hke).symm
    · rw [hstep] at h
      by_cases hk : k = C
      · subst hk
        rw [buildStep_skip hC] at hstep
        cases hstep
        exact ih hC h
      · have hC1 : lookupA C s1.cache = some (some a) := by
          rw [buildStep_cache_pres hstep C (fun e => hk e.symm), hC]
        exact ih hC1 h

theorem loadLoop_ok_mem_load {m : List (String × Option String)} {s s' : St}
    {ks : List String} {C p : String} {v : Option Artifact}
    (h : loadLoop m s ks = .ok s') (hC : C ∈ ks)
    (hm : lookupA C m = some (some p)) (hext : pyExt p = ".pkl")
    (hfs : lookupA p s.fs = some (FData.pkl v)) :
    Ev.load C p ∈ s'.evs := by
  induction ks generalizing s with
  | nil => simp at hC
  | cons k t ih =>
    simp only [loadLoop] at h
    rcases hstep : loadStep m s k with f | s1
    · rw [hstep] at h; cases h
    · rw [hstep] at h
      by_cases hk : k = C
      · subst hk
        have : loadStep m s k =
            .ok { s with cache := s.cache ++ [(k, v)],
                         evs := s.evs ++ [Ev.load k p] } := by
          simp [loadStep, hm, hext, hfs]
        rw [this] at hstep
        cases hstep
        obtain ⟨_, _, l2, he2, _⟩ := loadLoop_ok_char h
        rw [he2]
        simp
      · rcases List.mem_cons.mp hC with h' | h'
        · exact absurd h'.symm hk
        · have hfs1 : lookupA p s1.fs = some (FData.pkl v) := by
            rw [(loadStep_ok_char hstep).1, hfs]
          exact ih h h' hfs1

theorem rereduceLoop_ok_mem {b : RawDataset → Artifact}
    {m : List (String × Option String)} {c : List (String × String)}
    {s s' : St} {ks : List String}
    (h : rereduceLoop b m c s ks = .ok s') :
    ∀ C ∈ ks, ∀ cp, lookupA C c = some cp →
      Ev.rawRead C cp ∈ s'.evs ∧ Ev.build C ∈ s'.evs ∧
      ∀ mp, lookupA C m = some (some mp) → pyExt mp = ".pkl" →
        Ev.dump C mp ∈ s'.evs := by
  induction ks generalizing s with
  | nil => intro C hC; simp at hC
  | cons k t ih =>
    intro C hC cp hc
    simp only [rereduceLoop] at h
    rcases hstep : rereduceStep b m c s k with f | s1
    · rw [hstep] at h; cases h
    · rw [hstep] at h
      by_cases hk : k = C
      · subst hk
        obtain ⟨cp', d, hc', hraw, _, hcase⟩ := rereduceStep_ok_char hstep
        rw [hc] at hc'
        cases hc'
        obtain ⟨l2, he2, _⟩ := rereduceLoop_ok_evs h
        rcases hcase with ⟨mp, hm, hext, _, hevs⟩ | ⟨_, hevs, hmcase⟩
        · refine ⟨?_, ?_, ?_⟩
          · rw [he2, hevs]; simp
          · rw [he2, hevs]; simp
          · intro mp' hm' hext'
            rw [hm] at hm'
            cases hm'
            rw [he2, hevs]
            simp
        · refine ⟨by rw [he2, hevs]; simp, by rw [he2, hevs]; simp, ?_⟩
          intro mp' hm' hext'
          rcases hmcase with hmn | ⟨mp'', hm'', hext''⟩
          · rw [hmn] at hm'; cases hm'
          · rw [hm''] at hm'
            cases hm'
            exact absurd hext' hext''
      · rcases List.mem_cons.mp hC with h' | h'
        · exact absurd h'.symm hk
        · exact ih h C h' cp hc

theorem count_eq_zero_of_forall_ne {l : List Ev} {e : Ev}
    (h : ∀ x ∈ l, x ≠ e) : l.count e = 0 :=
  List.count_eq_zero.mpr (fun hmem => (h e hmem) rfl)

theorem buildLoop_count_build {b : RawDataset → Artifact}
    {m : List (String × Option String)} {c : List (String × String)}
    {s s' : St} {ks : List String} {C cp : String} {d : RawDataset}
    (h : buildLoop b m c s ks = .ok s') (hnd : ks.Nodup) (hC : C ∈ ks)
    (hcache : lookupA C s.cache = some none)
    (hc : lookupA C c = some cp)
    (hraw : lookupA cp s.fs = some (FData.raw d))
    (hni : ∀ k mp', lookupA k m = some (some mp') → mp' ≠ cp) :
    s'.evs.count (Ev.build C) = s.evs.count (Ev.build C) + 1 := by
  induction ks generalizing s with
  | nil => simp at hC
  | cons k t ih =>
    have hnd' : t.Nodup := (List.nodup_cons.mp hnd).2
    simp only [buildLoop] at h
    rcases hstep : buildStep b m c s k with f | s1
    · rw [hstep] at h; cases h
    · rw [hstep] at h
      by_cases hk : k = C
      · subst hk
        have hCt : k ∉ t := (List.nodup_cons.mp hnd).1
        rcases buildStep_ok_cases hstep with ⟨a, ha, _⟩ | ⟨_, cp', hc', hcase⟩
        · rw [hcache] at ha; cases ha
        · rw [hc] at hc'
          cases hc'
          rcases hcase with ⟨hno, _⟩ | ⟨d', hraw', hcache1, hcase2⟩
          · rw [hraw] at hno; cases hno
          · rw [hraw] at hraw'
            cases hraw'
            have hcount1 : s1.evs.count (Ev.build k) =
                s.evs.count (Ev.build k) + 1 := by
              rcases hcase2 with ⟨mp, _, _, _, hevs⟩ | ⟨_, hevs, _⟩ <;>
                simp [hevs, List.count_append, List.count_cons]
            obtain ⟨l2, he2, hl2⟩ := buildLoop_ok_evs h
            have hzero : l2.count (Ev.build k) = 0 := by
              apply count_eq_zero_of_forall_ne
              intro x hx he
              obtain ⟨j, hj, hsh⟩ := hl2 x hx
              rw [he] at hsh
              have hjk : j = k := by simpa [evTag] using hsh.1.symm
              exact hCt (hjk ▸ hj)
            rw [he2, List.count_append, hzero, hcount1]
      · have hC' : C ∈ t := by
          rcases List.mem_cons.mp hC with h' | h'
          · exact absurd h'.symm hk
          · exact h'
        have hcache1 : lookupA C s1.cache = some none := by
          rw [buildStep_cache_pres hstep C (fun e => hk e.symm), hcache]
        have hraw1 : lookupA cp s1.fs = some (FData.raw d) := by
          rcases buildStep_fs_cases hstep with hfs | ⟨mp, a, hm', _, hfs⟩
          · rw [hfs, hraw]
          · rw [hfs, lookupA_setA_ne _ _ (hni k mp hm'), hraw]
        have hcount1 : s1.evs.count (Ev.build C) = s.evs.count (Ev.build C) := by
          obtain ⟨l1, he1, hl1⟩ := buildStep_ok_evs hstep
          have : l1.count (Ev.build C) = 0 := by
            apply count_eq_zero_of_forall_ne
            intro x hx he
            have h2 := (hl1 x hx).1
            rw [he] at h2
            have h3 : C = k := by simpa [evTag] using h2
            exact hk h3.symm
          rw [he1, List.count_append, this, Nat.add_zero]
        rw [ih h hnd' hC' hcache1 hraw1, hcount1]

theorem rereduceLoop_count_build {b : RawDataset → Artifact}
    {m : List (String × Option String)} {c : List (String × String)}
    {s s' : St} {ks : List String} {C : String}
    (h : rereduceLoop b m c s ks = .ok s') (hnd : ks.Nodup) (hC : C ∈ ks) :
    s'.evs.count (Ev.build C) = s.evs.count (Ev.build C) + 1 := by
  induction ks generalizing s with
  | nil => simp at hC
  | cons k t ih =>
    have hnd' : t.Nodup := (List.nodup_cons.mp hnd).2
    simp only [rereduceLoop] at h
    rcases hstep : rereduceStep b m c s k with f | s1
    · rw [hstep] at h; cases h
    · rw [hstep] at h
      by_cases hk : k = C
      · subst hk
        have hCt : k ∉ t := (List.nodup_cons.mp hnd).1
        obtain ⟨cp', d, _, _, _, hcase⟩ := rereduceStep_ok_char hstep
        have hcount1 : s1.evs.count (Ev.build k) =
            s.evs.count (Ev.build k) + 1 := by
          rcases hcase with ⟨mp, _, _, _, hevs⟩ | ⟨_, hevs, _⟩ <;>
            simp [hevs, List.count_append, List.count_cons]
        obtain ⟨l2, he2, hl2⟩ := rereduceLoop_ok_evs h
        have hzero : l2.count (Ev.build k) = 0 := by
          apply count_eq_zero_of_forall_ne
          intro x hx he
          obtain ⟨j, hj, hsh⟩ := hl2 x hx
          rw [he] at hsh
          have hjk : j = k := by simpa [evTag] using hsh.1.symm
          exact hCt (hjk ▸ hj)
        rw [he2, List.count_append, hzero, hcount1]
      · have hC' : C ∈ t := by
          rcases List.mem_cons.mp hC with h' | h'
          · exact absurd h'.symm hk
          · exact h'
        have hcount1 : s1.evs.count (Ev.build C) = s.evs.count (Ev.build C) := by
          obtain ⟨l1, he1, hl1⟩ := rereduceStep_ok_evs hstep
          have : l1.count (Ev.build C) = 0 := by
            apply count_eq_zero_of_forall_ne
            intro x hx he
            have h2 := (hl1 x hx).1
            rw [he] at h2
            have h3 : C = k := by simpa [evTag] using h2
            exact hk h3.symm
          rw [he1, List.count_append, this, Nat.add_zero]
        rw [ih h hnd' hC', hcount1]

theorem main_cases (b : RawDataset → Artifact)
    (m : List (String × Option String)) (c : List (String × String))
    (rr : Bool) (fs0 : Fs) :
    (∃ f, loadLoop m ⟨fs0, [], []⟩ (sortedKeys m) = .error f ∧
       main b m c rr fs0 = ⟨f.1, .error f.2⟩) ∨
    (∃ s1, loadLoop m ⟨fs0, [], []⟩ (sortedKeys m) = .ok s1 ∧
      ((∃ f, buildLoop b m c s1 (sortedKeys m) = .error f ∧
          main b m c rr fs0 = ⟨f.1, .error f.2⟩) ∨
       (∃ s2, buildLoop b m c s1 (sortedKeys m) = .ok s2 ∧
         ((rr = false ∧ main b m c rr fs0 = ⟨s2.evs, .ok (s2.cache, s2.fs)⟩) ∨
          (rr = true ∧
            ((∃ f, rereduceLoop b m c s2 (sortedKeys c) = .error f ∧
                main b m c rr fs0 = ⟨f.1, .error f.2⟩) ∨
             (∃ s3, rereduceLoop b m c s2 (sortedKeys c) = .ok s3 ∧
               main b m c rr fs0 = ⟨s3.evs, .ok (s3.cache, s3.fs)⟩))))))) := by
  rcases h1 : loadLoop m ⟨fs0, [], []⟩ (sortedKeys m) with f1 | s1
  · exact Or.inl ⟨f1, rfl, by simp only [main, h1]⟩
  · refine Or.inr ⟨s1, rfl, ?_⟩
    rcases h2 : buildLoop b m c s1 (sortedKeys m) with f2 | s2
    · exact Or.inl ⟨f2, rfl, by simp only [main, h1, h2]⟩
    · refine Or.inr ⟨s2, rfl, ?_⟩
      cases rr with
      | false => exact Or.inl ⟨rfl, by simp only [main, h1, h2, if_false, Bool.false_eq_true]⟩
      | true =>
        refine Or.inr ⟨rfl, ?_⟩
        rcases h3 : rereduceLoop b m c s2 (sortedKeys c) with f3 | s3
        · exact Or.inl ⟨f3, rfl, by simp only [main, h1, h2, if_true, h3]⟩
        · exact Or.inr ⟨s3, rfl, by simp only [main, h1, h2, if_true, h3]⟩

/-- C1 (counterexample): with `rereduce=false` and a persisted file that
exists at the configured master path with the `.pkl` extension — a "valid
persisted artifact" in the claim's sense — but whose pickled content is
Python `None`, the orchestrator does invoke the raw reader and the builder
for that category, and the cache entry ends up being the rebuilt artifact
rather than the deserialized content; the claim as stated is false. -/
theorem claim_C1_counterexample :
    isfile [("m.pkl", FData.pkl none), ("c.raw", FData.raw ⟨7⟩)] "m.pkl" = true ∧
    pyExt "m.pkl" = ".pkl" ∧
    Ev.rawRead "bias" "c.raw" ∈ (main demoBuild [("bias", some "m.pkl")]
      [("bias", "c.raw")] false
      [("m.pkl", FData.pkl none), ("c.raw", FData.raw ⟨7⟩)]).evs ∧
    Ev.build "bias" ∈ (main demoBuild [("bias", some "m.pkl")]
      [("bias", "c.raw")] false
      [("m.pkl", FData.pkl none), ("c.raw", FData.raw ⟨7⟩)]).evs := by
  decide

/-- C1 (amended): if `rereduce` is false and a valid persisted artifact
exists for category C (the file at the persisted path exists with the `.pkl`
extension) and its deserialized content is not `None`, then the orchestrator
invokes neither the raw reader nor the builder for C, and on successful
completion the Artifact Cache entry for C equals the deserialized artifact. -/
theorem claim_C1 (b : RawDataset → Artifact) (m : List (String × Option String))
    (c : List (String × String)) (fs0 : Fs) (C p : String) (a : Artifact)
    (hm : lookupA C m = some (some p)) (hext : pyExt p = ".pkl")
    (hfs : lookupA p fs0 = some (FData.pkl (some a))) :
    (∀ e ∈ (main b m c false fs0).evs,
      (∀ q, e ≠ Ev.rawRead C q) ∧ e ≠ Ev.build C) ∧
    ∀ cache fsF, (main b m c false fs0).result = .ok (cache, fsF) →
      lookupA C cache = some (some a) := by
  have hCks : C ∈ sortedKeys m := mem_sortedKeys.mpr (mem_keys_of_lookupA hm)
  rcases main_cases b m c false fs0 with
    ⟨f, hl, hmain⟩ |
    ⟨s1, hl, ⟨f, hb, hmain⟩ | ⟨s2, hb, ⟨_, hmain⟩ | ⟨hcontra, _⟩⟩⟩
  · have hevs : (main b m c false fs0).evs = f.1 := by rw [hmain]
    have hres : (main b m c false fs0).result = .error f.2 := by rw [hmain]
    constructor
    · intro e he
      rw [hevs] at he
      obtain ⟨⟨l, hle, hl1⟩, _⟩ := loadLoop_err_char hl
      rw [hle] at he
      simp only [List.nil_append] at he
      obtain ⟨_, k', p', rfl, _⟩ := hl1 e he
      simp
    · intro cache fsF hok
      rw [hres] at hok
      cases hok
  · have hC1 : lookupA C s1.cache = some (some a) := by
      obtain ⟨hfs1, hc1, _⟩ := loadLoop_ok_char hl
      rw [hc1]
      simp only [List.nil_append]
      rw [lookupA_map_self _ hCks]
      simp [loadVal, hm, hext, hfs]
    have hevs : (main b m c false fs0).evs = f.1 := by rw [hmain]
    have hres : (main b m c false fs0).result = .error f.2 := by rw [hmain]
    constructor
    · intro e he
      rw [hevs] at he
      obtain ⟨l2, hle2, hl2⟩ := buildLoop_err_evs_notC hC1 hb
      rw [hle2] at he
      rcases List.mem_append.mp he with he' | he'
      · obtain ⟨_, _, l1, hle1, hl1⟩ := loadLoop_ok_char hl
        rw [hle1] at he'
        simp only [List.nil_append] at he'
        obtain ⟨_, k', p', rfl, _⟩ := hl1 e he'
        simp
      · have htag := hl2 e he'
        constructor
        · intro q he2
          rw [he2] at htag
          exact absurd rfl htag
        · intro he2
          rw [he2] at htag
          exact absurd rfl htag
    · intro cache fsF hok
      rw [hres] at hok
      cases hok
  · have hC1 : lookupA C s1.cache = some (some a) := by
      obtain ⟨hfs1, hc1, _⟩ := loadLoop_ok_char hl
      rw [hc1]
      simp only [List.nil_append]
      rw [lookupA_map_self _ hCks]
      simp [loadVal, hm, hext, hfs]
    have hevs : (main b m c false fs0).evs = s2.evs := by rw [hmain]
    have hres : (main b m c false fs0).result = .ok (s2.cache, s2.fs) := by
      rw [hmain]
    constructor
    · intro e he
      rw [hevs] at he
      obtain ⟨l2, hle2, hl2⟩ := buildLoop_ok_evs_notC hC1 hb
      rw [hle2] at he
      rcases List.mem_append.mp he with he' | he'
      · obtain ⟨_, _, l1, hle1, hl1⟩ := loadLoop_ok_char hl
        rw [hle1] at he'
        simp only [List.nil_append] at he'
        obtain ⟨_, k', p', rfl, _⟩ := hl1 e he'
        simp
      · have htag := hl2 e he'
        constructor
        · intro q he2
          rw [he2] at htag
          exact absurd rfl htag
        · intro he2
          rw [he2] at htag
          exact absurd rfl htag
    · intro cache fsF hok
      rw [hres] at hok
      injection hok with hok'
      injection hok' with hcc hff
      rw [← hcc]
      exact buildLoop_keep_some hb hC1
  · cases hcontra

/-- C1 (witness): the amended reuse law applied to a concrete run in which
`bias` has a valid non-`None` cached artifact. -/
theorem claim_C1_witness :
    lookupA "m.pkl" [("m.pkl", FData.pkl (some ⟨3⟩)), ("c.raw", FData.raw ⟨7⟩)] =
      some (FData.pkl (some ⟨3⟩)) ∧
    ((∀ e ∈ (main demoBuild [("bias", some "m.pkl")] [("bias", "c.raw")] false
        [("m.pkl", FData.pkl (some ⟨3⟩)), ("c.raw", FData.raw ⟨7⟩)]).evs,
      (∀ q, e ≠ Ev.rawRead "bias" q) ∧ e ≠ Ev.build "bias") ∧
    ∀ cache fsF, (main demoBuild [("bias", some "m.pkl")] [("bias", "c.raw")] false
        [("m.pkl", FData.pkl (some ⟨3⟩)), ("c.raw", FData.raw ⟨7⟩)]).result =
        .ok (cache, fsF) → lookupA "bias" cache = some (some ⟨3⟩)) :=
  ⟨by decide, claim_C1 demoBuild [("bias", some "m.pkl")] [("bias", "c.raw")]
    [("m.pkl", FData.pkl (some ⟨3⟩)), ("c.raw", FData.raw ⟨7⟩)]
    "bias" "m.pkl" ⟨3⟩ (by decide) (by decide) (by decide)⟩

/-- C4 (counterexample): a configuration whose persisted-path map has a
category (`bias`) absent from the raw-input-path map makes the orchestrator
raise `KeyError` (line 93) when that category has no valid cached artifact,
so the claim that it always completes without failing is false. -/
theorem claim_C4_counterexample :
    (main demoBuild [("bias", some "m.pkl")] [] false []).result =
      .error (.keyError "bias") := by
  decide

/-- C4 (amended): with `rereduce=false` the orchestrator tolerates the
mismatches only partially: no `KeyError` is ever raised for a category absent
from the persisted-path map, and none for a category of the persisted-path
map whose valid (non-`None`) cached artifact loads; but a persisted-path
category with no cached artifact and no raw-input entry does raise `KeyError`
(see the counterexample). -/
theorem claim_C4 (b : RawDataset → Artifact) (m : List (String × Option String))
    (c : List (String × String)) (fs0 : Fs) :
    (∀ C, lookupA C m = none →
      (main b m c false fs0).result ≠ .error (.keyError C)) ∧
    (∀ C p a, lookupA C m = some (some p) → pyExt p = ".pkl" →
      lookupA p fs0 = some (FData.pkl (some a)) →
      (main b m c false fs0).result ≠ .error (.keyError C)) := by
  rcases main_cases b m c false fs0 with
    ⟨f, hl, hmain⟩ |
    ⟨s1, hl, ⟨f, hb, hmain⟩ | ⟨s2, hb, ⟨_, hmain⟩ | ⟨hcontra, _⟩⟩⟩
  · have hres : (main b m c false fs0).result = .error f.2 := by rw [hmain]
    obtain ⟨_, hke⟩ := loadLoop_err_char hl
    constructor
    · intro C hm hres2
      rw [hres] at hres2
      injection hres2 with hres3
      obtain ⟨hCks, _⟩ := hke C hres3
      obtain ⟨v, hv⟩ := lookupA_isSome_of_mem_keys (mem_sortedKeys.mp hCks)
      rw [hm] at hv
      cases hv
    · intro C p a hm _ _ hres2
      rw [hres] at hres2
      injection hres2 with hres3
      obtain ⟨_, hnone⟩ := hke C hres3
      rw [hm] at hnone
      cases hnone
  · have hres : (main b m c false fs0).result = .error f.2 := by rw [hmain]
    obtain ⟨_, hke⟩ := buildLoop_err_evs hb
    constructor
    · intro C hm hres2
      rw [hres] at hres2
      injection hres2 with hres3
      have hCks : C ∈ sortedKeys m := hke C hres3
      obtain ⟨v, hv⟩ := lookupA_isSome_of_mem_keys (mem_sortedKeys.mp hCks)
      rw [hm] at hv
      cases hv
    · intro C p a hm hext hfs hres2
      rw [hres] at hres2
      injection hres2 with hres3
      have hCks : C ∈ sortedKeys m := mem_sortedKeys.mpr (mem_keys_of_lookupA hm)
      have hC1 : lookupA C s1.cache = some (some a) := by
        obtain ⟨hfs1, hc1, _⟩ := loadLoop_ok_char hl
        rw [hc1]
        simp only [List.nil_append]
        rw [lookupA_map_self _ hCks]
        simp [loadVal, hm, hext, hfs]
      exact buildLoop_err_keyError_not_some hC1 hb hres3
  · have hres : (main b m c false fs0).result = .ok (s2.cache, s2.fs) := by
      rw [hmain]
    constructor
    · intro C _ hres2
      rw [hres] at hres2
      cases hres2
    · intro C p a _ _ _ hres2
      rw [hres] at hres2
      cases hres2
  · cases hcontra

/-- C4 (witness): the tolerated direction at a concrete input — a category
present only in the raw-input map raises no lookup error. -/
theorem claim_C4_witness :
    (main demoBuild [("bias", some "m.pkl")] [("flat", "f.raw")] false
      []).result ≠ .error (.keyError "flat") :=
  (claim_C4 demoBuild [("bias", some "m.pkl")] [("flat", "f.raw")] []).1
    "flat" (by decide)

/-- C5: a persisted master file with the `.pkl` extension whose content fails
to deserialize aborts the whole invocation with a propagated error (in either
mode), and no raw read or build is performed at all — in particular the
category is not silently rebuilt as a cache miss. -/
theorem claim_C5 (b : RawDataset → Artifact) (m : List (String × Option String))
    (c : List (String × String)) (rr : Bool) (fs0 : Fs) (C p : String)
    (hm : lookupA C m = some (some p)) (hext : pyExt p = ".pkl")
    (hfs : lookupA p fs0 = some FData.corrupt) :
    (∃ e, (main b m c rr fs0).result = .error e) ∧
    ∀ ev ∈ (main b m c rr fs0).evs, ∀ k q,
      ev ≠ Ev.rawRead k q ∧ ev ≠ Ev.build k := by
  have hCks : C ∈ sortedKeys m := mem_sortedKeys.mpr (mem_keys_of_lookupA hm)
  rcases main_cases b m c rr fs0 with ⟨f, hl, hmain⟩ | ⟨s1, hl, _⟩
  · have hevs : (main b m c rr fs0).evs = f.1 := by rw [hmain]
    have hres : (main b m c rr fs0).result = .error f.2 := by rw [hmain]
    constructor
    · exact ⟨f.2, hres⟩
    · intro ev hev k q
      rw [hevs] at hev
      obtain ⟨⟨l, hle, hl1⟩, _⟩ := loadLoop_err_char hl
      rw [hle] at hev
      simp only [List.nil_append] at hev
      obtain ⟨_, k', p', rfl, _⟩ := hl1 ev hev
      simp
  · exfalso
    obtain ⟨mf, hm', hp⟩ := loadLoop_ok_LoadOk hl C hCks
    rw [hm] at hm'
    injection hm' with hm2
    injection hm2 with hm3
    obtain ⟨v, hv⟩ := hp (hm3 ▸ hext) _ (hm3 ▸ hfs)
    cases hv

/-- C5 (witness): the hard-error law applied to a concrete corrupt cache
file. -/
theorem claim_C5_witness :
    lookupA "m.pkl" [("m.pkl", FData.corrupt), ("c.raw", FData.raw ⟨7⟩)] =
      some FData.corrupt ∧
    ((∃ e, (main demoBuild [("bias", some "m.pkl")] [("bias", "c.raw")] false
        [("m.pkl", FData.corrupt), ("c.raw", FData.raw ⟨7⟩)]).result = .error e) ∧
    ∀ ev ∈ (main demoBuild [("bias", some "m.pkl")] [("bias", "c.raw")] false
        [("m.pkl", FData.corrupt), ("c.raw", FData.raw ⟨7⟩)]).evs, ∀ k q,
      ev ≠ Ev.rawRead k q ∧ ev ≠ Ev.build k) :=
  ⟨by decide, claim_C5 demoBuild [("bias", some "m.pkl")] [("bias", "c.raw")]
    false [("m.pkl", FData.corrupt), ("c.raw", FData.raw ⟨7⟩)] "bias" "m.pkl"
    (by decide) (by decide) (by decide)⟩

/-- C7: the claim says the Artifact Store load is total over absent (`None`)
persisted paths; the code instead crashes at line 82, where
`os.path.splitext(os.path.basename(mfpath))` is evaluated on `None` before
the `isfile` guard, raising a `TypeError` — even though lines 100 and 115
guard `mfpath is not None`, showing `None` paths were anticipated.  The model
evaluated at the failing input aborts before any artifact work. -/
theorem claim_C7 :
    main demoBuild [("bias", none)] [("bias", "c.raw")] false
      [("c.raw", FData.raw ⟨7⟩)] = ⟨[], .error .typeErrorNonePath⟩ := by
  decide

/-- C9: with `rereduce=false` both loops iterate only over the persisted-path
map's categories: a category present only in the raw-input map generates no
event at all (never read, never built, never loaded or dumped) and gets no
Artifact Cache entry, even if its raw input file exists. -/
theorem claim_C9 (b : RawDataset → Artifact) (m : List (String × Option String))
    (c : List (String × String)) (fs0 : Fs) (C cp : String)
    (hm : lookupA C m = none) (_hc : lookupA C c = some cp) :
    (∀ e ∈ (main b m c false fs0).evs, evTag e ≠ C) ∧
    ∀ cache fsF, (main b m c false fs0).result = .ok (cache, fsF) →
      lookupA C cache = none := by
  have hCks : C ∉ sortedKeys m := by
    intro h
    obtain ⟨v, hv⟩ := lookupA_isSome_of_mem_keys (mem_sortedKeys.mp h)
    rw [hm] at hv
    cases hv
  rcases main_cases b m c false fs0 with
    ⟨f, hl, hmain⟩ |
    ⟨s1, hl, ⟨f, hb, hmain⟩ | ⟨s2, hb, ⟨_, hmain⟩ | ⟨hcontra, _⟩⟩⟩
  · have hevs : (main b m c false fs0).evs = f.1 := by rw [hmain]
    have hres : (main b m c false fs0).result = .error f.2 := by rw [hmain]
    constructor
    · intro e he
      rw [hevs] at he
      obtain ⟨⟨l, hle, hl1⟩, _⟩ := loadLoop_err_char hl
      rw [hle] at he
      simp only [List.nil_append] at he
      intro htag
      exact hCks (htag ▸ (hl1 e he).1)
    · intro cache fsF hok
      rw [hres] at hok
      cases hok
  · have hevs : (main b m c false fs0).evs = f.1 := by rw [hmain]
    have hres : (main b m c false fs0).result = .error f.2 := by rw [hmain]
    constructor
    · intro e he
      rw [hevs] at he
      obtain ⟨⟨l2, hle2, hl2⟩, _⟩ := buildLoop_err_evs hb
      rw [hle2] at he
      rcases List.mem_append.mp he with he' | he'
      · obtain ⟨_, _, l1, hle1, hl1⟩ := loadLoop_ok_char hl
        rw [hle1] at he'
        simp only [List.nil_append] at he'
        intro htag
        exact hCks (htag ▸ (hl1 e he').1)
      · obtain ⟨j, hj, hsh⟩ := hl2 e he'
        intro htag
        exact hCks (htag ▸ hsh.1 ▸ hj)
    · intro cache fsF hok
      rw [hres] at hok
      cases hok
  · have hevs : (main b m c false fs0).evs = s2.evs := by rw [hmain]
    have hres : (main b m c false fs0).result = .ok (s2.cache, s2.fs) := by
      rw [hmain]
    constructor
    · intro e he
      rw [hevs] at he
      obtain ⟨l2, hle2, hl2⟩ := buildLoop_ok_evs hb
      rw [hle2] at he
      rcases List.mem_append.mp he with he' | he'
      · obtain ⟨_, _, l1, hle1, hl1⟩ := loadLoop_ok_char hl
        rw [hle1] at he'
        simp only [List.nil_append] at he'
        intro htag
        exact hCks (htag ▸ (hl1 e he').1)
      · obtain ⟨j, hj, hsh⟩ := hl2 e he'
        intro htag
        exact hCks (htag ▸ hsh.1 ▸ hj)
    · intro cache fsF hok
      rw [hres] at hok
      injection hok with hok'
      injection hok' with hcc hff
      rw [← hcc]
      have hC1 : lookupA C s1.cache = none := by
        obtain ⟨_, hc1, _⟩ := loadLoop_ok_char hl
        rw [hc1]
        simp only [List.nil_append]
        exact lookupA_map_of_not_mem _ hCks
      rw [buildLoop_cache_pres hb C hCks, hC1]
  · cases hcontra

/-- C9 (witness): the implicit master-keyed iteration at a concrete input — a
`flat` category present only in the raw-input map, with its raw file on disk,
produces no event and no cache entry. -/
theorem claim_C9_witness :
    ((∀ e ∈ (main demoBuild [("bias", some "m.pkl")] [("flat", "f.raw")] false
        [("f.raw", FData.raw ⟨7⟩)]).evs, evTag e ≠ "flat") ∧
    ∀ cache fsF, (main demoBuild [("bias", some "m.pkl")] [("flat", "f.raw")]
        false [("f.raw", FData.raw ⟨7⟩)]).result = .ok (cache, fsF) →
      lookupA "flat" cache = none) :=
  claim_C9 demoBuild [("bias", some "m.pkl")] [("flat", "f.raw")]
    [("f.raw", FData.raw ⟨7⟩)] "flat" "f.raw" (by decide) (by decide)

/-- C10: the `__main__` block always aborts at line 152: even when the
configuration file exists and has the `.json` extension, the call
`main(sorted(**args.__dict__))` passes the keyword `fconfig` (among others)
to the builtin `sorted`, which rejects it with a `TypeError`, so the pipeline
function `main` is never entered from the CLI. -/
theorem claim_C10 (fs0 : Fs) (args : Args)
    (h1 : isfile fs0 args.fconfig = true) (h2 : pyExt args.fconfig = ".json") :
    cliMain fs0 args = .error (.typeErrorBadKeyword "fconfig") := by
  unfold cliMain
  rw [h1, h2]
  simp [sortedKwOnly]

/-- C10 (witness): the CLI dead-end at a concrete existing `.json`
configuration file. -/
theorem claim_C10_witness :
    isfile [("cfg.json", FData.corrupt)] "cfg.json" = true ∧
    pyExt "cfg.json" = ".json" ∧
    cliMain [("cfg.json", FData.corrupt)] ⟨"cfg.json", false, 0⟩ =
      .error (.typeErrorBadKeyword "fconfig") :=
  ⟨by decide, by decide,
    claim_C10 [("cfg.json", FData.corrupt)] ⟨"cfg.json", false, 0⟩
      (by decide) (by decide)⟩

/-- Every event of a `main` run is either a pickle load of a `.pkl` path or a
build/re-reduce pass event (`StepEv`-shaped: not a load, dumps only to `.pkl`
paths). -/
theorem main_evs_shape (b : RawDataset → Artifact)
    (m : List (String × Option String)) (c : List (String × String))
    (rr : Bool) (fs0 : Fs) :
    ∀ e ∈ (main b m c rr fs0).evs,
      (∃ k q, e = Ev.load k q ∧ pyExt q = ".pkl") ∨ ∃ k0, StepEv k0 e := by
  rcases main_cases b m c rr fs0 with
    ⟨f, hl, hmain⟩ |
    ⟨s1, hl, ⟨f, hb, hmain⟩ | ⟨s2, hb, ⟨_, hmain⟩ |
      ⟨_, ⟨f, h3, hmain⟩ | ⟨s3, h3, hmain⟩⟩⟩⟩
  · intro e he
    rw [show (main b m c rr fs0).evs = f.1 by rw [hmain]] at he
    obtain ⟨⟨l, hle, hl1⟩, _⟩ := loadLoop_err_char hl
    rw [hle] at he
    simp only [List.nil_append] at he
    obtain ⟨_, k', q', rfl, hq⟩ := hl1 e he
    exact Or.inl ⟨k', q', rfl, hq⟩
  · intro e he
    rw [show (main b m c rr fs0).evs = f.1 by rw [hmain]] at he
    obtain ⟨⟨l2, hle2, hl2⟩, _⟩ := buildLoop_err_evs hb
    rw [hle2] at he
    rcases List.mem_append.mp he with he' | he'
    · obtain ⟨_, _, l1, hle1, hl1⟩ := loadLoop_ok_char hl
      rw [hle1] at he'
      simp only [List.nil_append] at he'
      obtain ⟨_, k', q', rfl, hq⟩ := hl1 e he'
      exact Or.inl ⟨k', q', rfl, hq⟩
    · obtain ⟨j, _, hsh⟩ := hl2 e he'
      exact Or.inr ⟨j, hsh⟩
  · intro e he
    rw [show (main b m c rr fs0).evs = s2.evs by rw [hmain]] at he
    obtain ⟨l2, hle2, hl2⟩ := buildLoop_ok_evs hb
    rw [hle2] at he
    rcases List.mem_append.mp he with he' | he'
    · obtain ⟨_, _, l1, hle1, hl1⟩ := loadLoop_ok_char hl
      rw [hle1] at he'
      simp only [List.nil_append] at he'
      obtain ⟨_, k', q', rfl, hq⟩ := hl1 e he'
      exact Or.inl ⟨k', q', rfl, hq⟩
    · obtain ⟨j, _, hsh⟩ := hl2 e he'
      exact Or.inr ⟨j, hsh⟩
  · intro e he
    rw [show (main b m c rr fs0).evs = f.1 by rw [hmain]] at he
    obtain ⟨⟨l3, hle3, hl3⟩, _⟩ := rereduceLoop_err_evs h3
    rw [hle3] at he
    rcases List.mem_append.mp he with he2 | he3
    · obtain ⟨l2, hle2, hl2⟩ := buildLoop_ok_evs hb
      rw [hle2] at he2
      rcases List.mem_append.mp he2 with he' | he'
      · obtain ⟨_, _, l1, hle1, hl1⟩ := loadLoop_ok_char hl
        rw [hle1] at he'
        simp only [List.nil_append] at he'
        obtain ⟨_, k', q', rfl, hq⟩ := hl1 e he'
        exact Or.inl ⟨k', q', rfl, hq⟩
      · obtain ⟨j, _, hsh⟩ := hl2 e he'
        exact Or.inr ⟨j, hsh⟩
    · obtain ⟨j, _, hsh⟩ := hl3 e he3
      exact Or.inr ⟨j, hsh⟩
  · intro e he
    rw [show (main b m c rr fs0).evs = s3.evs by rw [hmain]] at he
    obtain ⟨l3, hle3, hl3⟩ := rereduceLoop_ok_evs h3
    rw [hle3] at he
    rcases List.mem_append.mp he with he2 | he3
    · obtain ⟨l2, hle2, hl2⟩ := buildLoop_ok_evs hb
      rw [hle2] at he2
      rcases List.mem_append.mp he2 with he' | he'
      · obtain ⟨_, _, l1, hle1, hl1⟩ := loadLoop_ok_char hl
        rw [hle1] at he'
        simp only [List.nil_append] at he'
        obtain ⟨_, k', q', rfl, hq⟩ := hl1 e he'
        exact Or.inl ⟨k', q', rfl, hq⟩
      · obtain ⟨j, _, hsh⟩ := hl2 e he'
        exact Or.inr ⟨j, hsh⟩
    · obtain ⟨j, _, hsh⟩ := hl3 e he3
      exact Or.inr ⟨j, hsh⟩

theorem load_shape_not_nonpkl {e : Ev} {p : String} (hp : pyExt p ≠ ".pkl")
    (h : ∃ k q, e = Ev.load k q ∧ pyExt q = ".pkl") :
    (∀ k, e ≠ Ev.load k p) ∧ ∀ k, e ≠ Ev.dump k p := by
  obtain ⟨k, q, rfl, hq⟩ := h
  constructor
  · intro k' he
    injection he with h1 h2
    rw [h2] at hq
    exact hp hq
  · intro k' he
    cases he

theorem step_shape_not_nonpkl {e : Ev} {p k0 : String} (hp : pyExt p ≠ ".pkl")
    (h : StepEv k0 e) : (∀ k, e ≠ Ev.load k p) ∧ ∀ k, e ≠ Ev.dump k p :=
  ⟨fun k he => h.2.1 k p he, fun k he => hp (h.2.2 k p he)⟩

/-- C6: a file at a persisted path whose extension is not `.pkl` is never
opened for unpickling and never written by a pickle dump, in either mode and
for any filesystem, and on successful completion its filesystem entry is
unchanged. -/
theorem claim_C6 (b : RawDataset → Artifact) (m : List (String × Option String))
    (c : List (String × String)) (rr : Bool) (fs0 : Fs) (p : String)
    (hp : pyExt p ≠ ".pkl") :
    (∀ e ∈ (main b m c rr fs0).evs,
      (∀ k, e ≠ Ev.load k p) ∧ ∀ k, e ≠ Ev.dump k p) ∧
    ∀ cache fsF, (main b m c rr fs0).result = .ok (cache, fsF) →
      lookupA p fsF = lookupA p fs0 := by
  have hfsh : ∀ k ∈ sortedKeys m, ∀ mp, lookupA k m = some (some mp) →
      pyExt mp = ".pkl" → mp ≠ p :=
    fun k _ mp _ hext he => hp (he ▸ hext)
  constructor
  · intro e he
    rcases main_evs_shape b m c rr fs0 e he with h | ⟨k0, h⟩
    · exact load_shape_not_nonpkl hp h
    · exact step_shape_not_nonpkl hp h
  · intro cache fsF hok
    rcases main_cases b m c rr fs0 with
      ⟨f, hl, hmain⟩ |
      ⟨s1, hl, ⟨f, hb, hmain⟩ | ⟨s2, hb, ⟨_, hmain⟩ |
        ⟨_, ⟨f, h3, hmain⟩ | ⟨s3, h3, hmain⟩⟩⟩⟩
    · rw [show (main b m c rr fs0).result = .error f.2 by rw [hmain]] at hok
      cases hok
    · rw [show (main b m c rr fs0).result = .error f.2 by rw [hmain]] at hok
      cases hok
    · rw [show (main b m c rr fs0).result = .ok (s2.cache, s2.fs) by
        rw [hmain]] at hok
      injection hok with hok'
      injection hok' with hcc hff
      rw [← hff, buildLoop_fs_pres hb hfsh, (loadLoop_ok_char hl).1]
    · rw [show (main b m c rr fs0).result = .error f.2 by rw [hmain]] at hok
      cases hok
    · rw [show (main b m c rr fs0).result = .ok (s3.cache, s3.fs) by
        rw [hmain]] at hok
      injection hok with hok'
      injection hok' with hcc hff
      have hfsh2 : ∀ k ∈ sortedKeys c, ∀ mp, lookupA k m = some (some mp) →
          pyExt mp = ".pkl" → mp ≠ p :=
        fun k _ mp _ hext he => hp (he ▸ hext)
      rw [← hff, rereduceLoop_fs_pres h3 hfsh2, buildLoop_fs_pres hb hfsh,
        (loadLoop_ok_char hl).1]

/-- C6 (witness): the extension gate at a concrete run — a master path with a
`.dat` extension (holding unreadable bytes) is never loaded or dumped and is
untouched on disk, in re-reduce mode. -/
theorem claim_C6_witness :
    pyExt "m.dat" ≠ ".pkl" ∧
    ((∀ e ∈ (main demoBuild [("bias", some "m.dat")] [("bias", "c.raw")] true
        [("m.dat", FData.corrupt), ("c.raw", FData.raw ⟨7⟩)]).evs,
      (∀ k, e ≠ Ev.load k "m.dat") ∧ ∀ k, e ≠ Ev.dump k "m.dat") ∧
    ∀ cache fsF, (main demoBuild [("bias", some "m.dat")] [("bias", "c.raw")]
        true [("m.dat", FData.corrupt), ("c.raw", FData.raw ⟨7⟩)]).result =
        .ok (cache, fsF) →
      lookupA "m.dat" fsF =
        lookupA "m.dat" [("m.dat", FData.corrupt), ("c.raw", FData.raw ⟨7⟩)]) :=
  ⟨by decide, claim_C6 demoBuild [("bias", some "m.dat")] [("bias", "c.raw")]
    true [("m.dat", FData.corrupt), ("c.raw", FData.raw ⟨7⟩)] "m.dat"
    (by decide)⟩

/-- C2 (counterexample): with `rereduce=true` the cache-load pass is not
skipped: a valid persisted artifact file is still opened and deserialized
(the first loop, lines 80-89, runs regardless of `rereduce`), so the claim
that no persisted artifact file is opened is false. -/
theorem claim_C2_counterexample :
    Ev.load "bias" "m.pkl" ∈ (main demoBuild [("bias", some "m.pkl")]
      [("bias", "c.raw")] true
      [("m.pkl", FData.pkl (some ⟨3⟩)), ("c.raw", FData.raw ⟨7⟩)]).evs := by
  decide

/-- C2 (amended): when `rereduce` is true the load pass still runs first —
every valid persisted artifact is opened and deserialized — and afterwards
every category of the raw-input map is read from raw and rebuilt by the
re-reduce pass, with a write-through when a `.pkl` persisted path is
configured. -/
theorem claim_C2 (b : RawDataset → Artifact) (m : List (String × Option String))
    (c : List (String × String)) (fs0 : Fs)
    (cache : List (String × Option Artifact)) (fsF : Fs)
    (hok : (main b m c true fs0).result = .ok (cache, fsF)) :
    (∀ C p v, lookupA C m = some (some p) → pyExt p = ".pkl" →
      lookupA p fs0 = some (FData.pkl v) →
      Ev.load C p ∈ (main b m c true fs0).evs) ∧
    (∀ C cp, lookupA C c = some cp →
      Ev.rawRead C cp ∈ (main b m c true fs0).evs ∧
      Ev.build C ∈ (main b m c true fs0).evs ∧
      ∀ mp, lookupA C m = some (some mp) → pyExt mp = ".pkl" →
        Ev.dump C mp ∈ (main b m c true fs0).evs) := by
  rcases main_cases b m c true fs0 with
    ⟨f, hl, hmain⟩ |
    ⟨s1, hl, ⟨f, hb, hmain⟩ | ⟨s2, hb, ⟨hrr, hmain⟩ |
      ⟨_, ⟨f, h3, hmain⟩ | ⟨s3, h3, hmain⟩⟩⟩⟩
  · rw [show (main b m c true fs0).result = .error f.2 by rw [hmain]] at hok
    cases hok
  · rw [show (main b m c true fs0).result = .error f.2 by rw [hmain]] at hok
    cases hok
  · cases hrr
  · rw [show (main b m c true fs0).result = .error f.2 by rw [hmain]] at hok
    cases hok
  · have hevs : (main b m c true fs0).evs = s3.evs := by rw [hmain]
    constructor
    · intro C p v hm hext hfs
      have hCks : C ∈ sortedKeys m := mem_sortedKeys.mpr (mem_keys_of_lookupA hm)
      have h1 : Ev.load C p ∈ s1.evs :=
        loadLoop_ok_mem_load hl hCks hm hext hfs
      obtain ⟨l2, hle2, _⟩ := buildLoop_ok_evs hb
      obtain ⟨l3, hle3, _⟩ := rereduceLoop_ok_evs h3
      rw [hevs, hle3, hle2]
      exact List.mem_append_left _ (List.mem_append_left _ h1)
    · intro C cp hc
      have hCks : C ∈ sortedKeys c := mem_sortedKeys.mpr (mem_keys_of_lookupA hc)
      obtain ⟨h1, h2, h3'⟩ := rereduceLoop_ok_mem h3 C hCks cp hc
      exact ⟨hevs ▸ h1, hevs ▸ h2, fun mp hm hext => hevs ▸ h3' mp hm hext⟩

/-- C2 (witness): the amended force-rebuild behaviour at a concrete run with
a valid cached artifact: the cache file is loaded, and the category is also
re-read, rebuilt and re-persisted. -/
theorem claim_C2_witness :
    ((∀ C p v, lookupA C [("bias", some "m.pkl")] = some (some p) →
      pyExt p = ".pkl" →
      lookupA p [("m.pkl", FData.pkl (some ⟨3⟩)), ("c.raw", FData.raw ⟨7⟩)] =
        some (FData.pkl v) →
      Ev.load C p ∈ (main demoBuild [("bias", some "m.pkl")]
        [("bias", "c.raw")] true
        [("m.pkl", FData.pkl (some ⟨3⟩)), ("c.raw", FData.raw ⟨7⟩)]).evs) ∧
    (∀ C cp, lookupA C [("bias", "c.raw")] = some cp →
      Ev.rawRead C cp ∈ (main demoBuild [("bias", some "m.pkl")]
        [("bias", "c.raw")] true
        [("m.pkl", FData.pkl (some ⟨3⟩)), ("c.raw", FData.raw ⟨7⟩)]).evs ∧
      Ev.build C ∈ (main demoBuild [("bias", some "m.pkl")]
        [("bias", "c.raw")] true
        [("m.pkl", FData.pkl (some ⟨3⟩)), ("c.raw", FData.raw ⟨7⟩)]).evs ∧
      ∀ mp, lookupA C [("bias", some "m.pkl")] = some (some mp) →
        pyExt mp = ".pkl" →
        Ev.dump C mp ∈ (main demoBuild [("bias", some "m.pkl")]
          [("bias", "c.raw")] true
          [("m.pkl", FData.pkl (some ⟨3⟩)), ("c.raw", FData.raw ⟨7⟩)]).evs)) :=
  claim_C2 demoBuild [("bias", some "m.pkl")] [("bias", "c.raw")]
    [("m.pkl", FData.pkl (some ⟨3⟩)), ("c.raw", FData.raw ⟨7⟩)]
    [("bias", some ⟨7⟩)] [("m.pkl", FData.pkl (some ⟨7⟩)), ("c.raw", FData.raw ⟨7⟩)]
    (by decide)

/-- C3 (counterexample): with `rereduce=true`, a category with usable raw
input but no previously cached artifact is read and built twice (once by the
normal build pass, lines 91-106, and once by the re-reduce pass, lines
107-121), not exactly once as claimed. -/
theorem claim_C3_counterexample :
    isfile [("c.raw", FData.raw ⟨7⟩)] "c.raw" = true ∧
    ((main demoBuild [("dark", some "m.pkl")] [("dark", "c.raw")] true
      [("c.raw", FData.raw ⟨7⟩)]).evs.count (Ev.build "dark")) = 2 := by
  decide

/-- C3 (amended): with `rereduce=true`, on a successful run, a category with
usable raw input and a configured `.pkl` persisted path (not aliased by any
other persisted path onto the raw input) has its persisted file overwritten;
the reader/builder are invoked exactly once when a valid cached artifact
previously existed, and twice — not once — when none did. -/
theorem claim_C3 (b : RawDataset → Artifact) (m : List (String × Option String))
    (c : List (String × String)) (fs0 : Fs)
    (cache : List (String × Option Artifact)) (fsF : Fs) (C cp mp : String)
    (d : RawDataset)
    (hok : (main b m c true fs0).result = .ok (cache, fsF))
    (hc : lookupA C c = some cp) (hm : lookupA C m = some (some mp))
    (hext : pyExt mp = ".pkl")
    (hraw : lookupA cp fs0 = some (FData.raw d))
    (hni : ∀ k mp', lookupA k m = some (some mp') → mp' ≠ cp) :
    Ev.dump C mp ∈ (main b m c true fs0).evs ∧
    (∀ a, lookupA mp fs0 = some (FData.pkl (some a)) →
      ((main b m c true fs0).evs.count (Ev.build C)) = 1) ∧
    (lookupA mp fs0 = none →
      ((main b m c true fs0).evs.count (Ev.build C)) = 2) := by
  have hCksm : C ∈ sortedKeys m := mem_sortedKeys.mpr (mem_keys_of_lookupA hm)
  have hCksc : C ∈ sortedKeys c := mem_sortedKeys.mpr (mem_keys_of_lookupA hc)
  rcases main_cases b m c true fs0 with
    ⟨f, hl, hmain⟩ |
    ⟨s1, hl, ⟨f, hb, hmain⟩ | ⟨s2, hb, ⟨hrr, hmain⟩ |
      ⟨_, ⟨f, h3, hmain⟩ | ⟨s3, h3, hmain⟩⟩⟩⟩
  · rw [show (main b m c true fs0).result = .error f.2 by rw [hmain]] at hok
    cases hok
  · rw [show (main b m c true fs0).result = .error f.2 by rw [hmain]] at hok
    cases hok
  · cases hrr
  · rw [show (main b m c true fs0).result = .error f.2 by rw [hmain]] at hok
    cases hok
  · have hevs : (main b m c true fs0).evs = s3.evs := by rw [hmain]
    have hs1count : s1.evs.count (Ev.build C) = 0 := by
      obtain ⟨_, _, l1, hle1, hl1⟩ := loadLoop_ok_char hl
      rw [hle1]
      simp only [List.nil_append]
      apply count_eq_zero_of_forall_ne
      intro x hx he
      obtain ⟨_, k', p', hxe, _⟩ := hl1 x hx
      rw [he] at hxe
      cases hxe
    refine ⟨?_, ?_, ?_⟩
    · obtain ⟨_, _, h3'⟩ := rereduceLoop_ok_mem h3 C hCksc cp hc
      exact hevs ▸ h3' mp hm hext
    · intro a hprior
      have hC1 : lookupA C s1.cache = some (some a) := by
        obtain ⟨_, hc1, _⟩ := loadLoop_ok_char hl
        rw [hc1]
        simp only [List.nil_append]
        rw [lookupA_map_self _ hCksm]
        simp [loadVal, hm, hext, hprior]
      have hs2count : s2.evs.count (Ev.build C) = 0 := by
        obtain ⟨l2, hle2, hl2⟩ := buildLoop_ok_evs_notC hC1 hb
        rw [hle2, List.count_append, hs1count, Nat.zero_add]
        apply count_eq_zero_of_forall_ne
        intro x hx he
        have := hl2 x hx
        rw [he] at this
        exact this rfl
      rw [hevs, rereduceLoop_count_build h3 (sortedKeys_nodup c) hCksc,
        hs2count]
    · intro hprior
      have hC1 : lookupA C s1.cache = some none := by
        obtain ⟨_, hc1, _⟩ := loadLoop_ok_char hl
        rw [hc1]
        simp only [List.nil_append]
        rw [lookupA_map_self _ hCksm]
        simp [loadVal, hm, hext, hprior]
      have hraw1 : lookupA cp s1.fs = some (FData.raw d) := by
        rw [(loadLoop_ok_char hl).1]
        exact hraw
      have hs2count : s2.evs.count (Ev.build C) = 1 := by
        rw [buildLoop_count_build hb (sortedKeys_nodup m) hCksm hC1 hc hraw1 hni,
          hs1count]
      rw [hevs, rereduceLoop_count_build h3 (sortedKeys_nodup c) hCksc,
        hs2count]

/-- C3 (witness): the amended force-rebuild law at a concrete run with no
prior cache: the persisted file is written and the builder runs twice. -/
theorem claim_C3_witness :
    (Ev.dump "dark" "m.pkl" ∈ (main demoBuild [("dark", some "m.pkl")]
        [("dark", "c.raw")] true [("c.raw", FData.raw ⟨7⟩)]).evs ∧
    (∀ a, lookupA "m.pkl" [("c.raw", FData.raw ⟨7⟩)] =
        some (FData.pkl (some a)) →
      ((main demoBuild [("dark", some "m.pkl")] [("dark", "c.raw")] true
        [("c.raw", FData.raw ⟨7⟩)]).evs.count (Ev.build "dark")) = 1) ∧
    (lookupA "m.pkl" [("c.raw", FData.raw ⟨7⟩)] = none →
      ((main demoBuild [("dark", some "m.pkl")] [("dark", "c.raw")] true
        [("c.raw", FData.raw ⟨7⟩)]).evs.count (Ev.build "dark")) = 2)) :=
  claim_C3 demoBuild [("dark", some "m.pkl")] [("dark", "c.raw")]
    [("c.raw", FData.raw ⟨7⟩)] [("dark", some ⟨7⟩)]
    [("c.raw", FData.raw ⟨7⟩), ("m.pkl", FData.pkl (some ⟨7⟩))]
    "dark" "c.raw" "m.pkl" ⟨7⟩ (by decide) (by decide) (by decide) (by decide)
    (by decide)
    (by
      intro k mp' hkm
      simp only [lookupA] at hkm
      split at hkm
      · injection hkm with h1
        injection h1 with h2
        rw [← h2]
        decide
      · cases hkm)

theorem bval_congr {b : RawDataset → Artifact} {c : List (String × String)}
    {F : Fs} {f g : String → Option Artifact} {k : String} (h : f k = g k) :
    bval b c F f k = bval b c F g k := by
  unfold bval
  rw [h]

theorem bwrites_congr2 {b : RawDataset → Artifact}
    {m : List (String × Option String)} {c : List (String × String)}
    {F : Fs} {f g : String → Option Artifact} {k : String} (h : f k = g k) :
    bwrites b m c F f k = bwrites b m c F g k := by
  unfold bwrites
  rw [h]

theorem bwrites_some_inv {b : RawDataset → Artifact}
    {m : List (String × Option String)} {c : List (String × String)}
    {F : Fs} {f : String → Option Artifact} {k : String} {v : Option Artifact}
    (h : bwrites b m c F f k = some v) :
    f k = none ∧ ∃ cp d mp, lookupA k c = some cp ∧
      lookupA cp F = some (FData.raw d) ∧ lookupA k m = some (some mp) ∧
      pyExt mp = ".pkl" ∧ v = some (b d) := by
  rcases hf : f k with _ | a
  · rcases hc : lookupA k c with _ | cp
    · simp [bwrites, hf, hc] at h
    · rcases hF : lookupA cp F with _ | fd
      · simp [bwrites, hf, hc, hF] at h
      · rcases fd with w | d | _
        · simp [bwrites, hf, hc, hF] at h
        · rcases hm : lookupA k m with _ | (_ | mp)
          · simp [bwrites, hf, hc, hF, hm] at h
          · simp [bwrites, hf, hc, hF, hm] at h
          · by_cases hext : pyExt mp = ".pkl"
            · simp only [bwrites, hf, hc, hF, hm, hext, if_true] at h
              injection h with h1
              exact ⟨rfl, cp, d, mp, rfl, hF, rfl, hext, h1.symm⟩
            · simp [bwrites, hf, hc, hF, hm, hext] at h
        · simp [bwrites, hf, hc, hF] at h
  · simp [bwrites, hf] at h

theorem bwrites_none_raw {b : RawDataset → Artifact}
    {m : List (String × Option String)} {c : List (String × String)}
    {F : Fs} {f : String → Option Artifact} {k cp mp : String} {d : RawDataset}
    (h : bwrites b m c F f k = none) (hf : f k = none)
    (hc : lookupA k c = some cp) (hF : lookupA cp F = some (FData.raw d))
    (hm : lookupA k m = some (some mp)) : pyExt mp ≠ ".pkl" := by
  intro hext
  simp [bwrites, hf, hc, hF, hm, hext] at h

theorem buildStep_miss_absent {b : RawDataset → Artifact}
    {m : List (String × Option String)} {c : List (String × String)}
    {s : St} {k cp : String}
    (hv : lookupA k s.cache = some none) (hc : lookupA k c = some cp)
    (hfs : lookupA cp s.fs = none) : buildStep b m c s k = .ok s := by
  simp [buildStep, hv, hc, hfs]

theorem buildStep_miss_raw_nopkl {b : RawDataset → Artifact}
    {m : List (String × Option String)} {c : List (String × String)}
    {s : St} {k cp mp : String} {d : RawDataset}
    (hv : lookupA k s.cache = some none) (hc : lookupA k c = some cp)
    (hfs : lookupA cp s.fs = some (FData.raw d))
    (hm : lookupA k m = some (some mp)) (hext : pyExt mp ≠ ".pkl") :
    buildStep b m c s k = .ok { s with
      cache := setA k (some (b d)) s.cache,
      evs := s.evs ++ [Ev.rawRead k cp, Ev.build k] } := by
  simp [buildStep, hv, hc, hfs, hm, hext]

/-- Characterization of a successful build pass (lines 91-106) over a list
of categories `l`, relative to a reference filesystem `F` whose raw-input
entries agree with the state's: the final cache values are `bval`, the final
content of each processed category's master path is given by `bwrites`, and
every cache-missed category has a raw-input entry whose file is absent or
readable. Requires persisted paths disjoint from raw-input paths (`hdisj`)
and injective across categories (`hinj`). -/
theorem buildLoop_char {b : RawDataset → Artifact}
    {m : List (String × Option String)} {c : List (String × String)}
    {F : Fs} {ks : List String} {l : List String} {s s' : St}
    {f : String → Option Artifact}
    (hdisj : ∀ k k' p cp, lookupA k m = some (some p) →
      lookupA k' c = some cp → p ≠ cp)
    (hinj : ∀ k k' p, lookupA k m = some (some p) →
      lookupA k' m = some (some p) → k = k')
    (hndks : ks.Nodup) (hndl : l.Nodup)
    (hrep : s.cache = ks.map fun j => (j, f j))
    (hsub : ∀ k ∈ l, k ∈ ks)
    (hstable : ∀ k' cp, lookupA k' c = some cp →
      lookupA cp s.fs = lookupA cp F)
    (h : buildLoop b m c s l = .ok s') :
    s'.cache = (ks.map fun j => (j, if j ∈ l then bval b c F f j else f j)) ∧
    (∀ k ∈ l, ∀ mp, lookupA k m = some (some mp) →
      lookupA mp s'.fs =
        (match bwrites b m c F f k with
         | some v => some (FData.pkl v)
         | none => lookupA mp s.fs)) ∧
    (∀ k ∈ l, f k = none → ∃ cp, lookupA k c = some cp ∧
      (lookupA cp F = none ∨ ∃ d, lookupA cp F = some (FData.raw d))) := by
  induction l generalizing s f with
  | nil =>
    cases h
    refine ⟨?_, by simp, by simp⟩
    rw [hrep]
    simp
  | cons k0 t ih =>
    have hndl' : t.Nodup := (List.nodup_cons.mp hndl).2
    have hk0t : k0 ∉ t := (List.nodup_cons.mp hndl).1
    have hk0ks : k0 ∈ ks := hsub k0 (List.mem_cons_self k0 t)
    have hsub' : ∀ k ∈ t, k ∈ ks :=
      fun j hj => hsub j (List.mem_cons.mpr (Or.inr hj))
    have hv0 : lookupA k0 s.cache = some (f k0) := by
      rw [hrep]
      exact lookupA_map_self f hk0ks
    simp only [buildLoop] at h
    rcases hstep : buildStep b m c s k0 with ff | s1
    · rw [hstep] at h; cases h
    · rw [hstep] at h
      rcases buildStep_ok_cases hstep with ⟨a, ha, heq⟩ | ⟨hnone, cp, hc, hcase⟩
      · -- cached hit: the step is a no-op
        rw [heq] at h
        have hfk0 : f k0 = some a := by
          rw [hv0] at ha
          injection ha
        obtain ⟨ih1, ih2, ih3⟩ := ih hndl' hrep hsub' hstable h
        refine ⟨?_, ?_, ?_⟩
        · rw [ih1]
          apply List.map_congr_left
          intro j _
          by_cases hjk : j = k0
          · subst hjk
            simp [hk0t, bval, hfk0]
          · simp [List.mem_cons, hjk]
        · intro k hk mp hmp
          by_cases hkk : k = k0
          · subst hkk
            have hpres : lookupA mp s'.fs = lookupA mp s.fs := by
              apply buildLoop_fs_pres h
              intro j hj mpj hmj _ hje
              subst hje
              exact hk0t ((hinj j k mpj hmj hmp) ▸ hj)
            rw [hpres]
            simp [bwrites, hfk0]
          · rcases List.mem_cons.mp hk with he | hkt
            · exact absurd he hkk
            · exact ih2 k hkt mp hmp
        · intro k hk hfk
          by_cases hkk : k = k0
          · subst hkk
            rw [hfk0] at hfk
            cases hfk
          · rcases List.mem_cons.mp hk with he | hkt
            · exact absurd he hkk
            · exact ih3 k hkt hfk
      · -- cache miss
        have hfk0 : f k0 = none := by
          rw [hv0] at hnone
          injection hnone
        have hcpF : lookupA cp s.fs = lookupA cp F := hstable k0 cp hc
        rcases hcase with ⟨hcpfs, heq⟩ | ⟨d, hcpfs, hcache1, hcase2⟩
        · -- raw-input file absent: no-op
          rw [heq] at h
          have hFnone : lookupA cp F = none := by rw [← hcpF, hcpfs]
          obtain ⟨ih1, ih2, ih3⟩ := ih hndl' hrep hsub' hstable h
          refine ⟨?_, ?_, ?_⟩
          · rw [ih1]
            apply List.map_congr_left
            intro j _
            by_cases hjk : j = k0
            · subst hjk
              simp [hk0t, bval, hfk0, hc, hFnone]
            · simp [List.mem_cons, hjk]
          · intro k hk mp hmp
            by_cases hkk : k = k0
            · subst hkk
              have hpres : lookupA mp s'.fs = lookupA mp s.fs := by
                apply buildLoop_fs_pres h
                intro j hj mpj hmj _ hje
                subst hje
                exact hk0t ((hinj j k mpj hmj hmp) ▸ hj)
              rw [hpres]
              simp [bwrites, hfk0, hc, hFnone]
            · rcases List.mem_cons.mp hk with he | hkt
              · exact absurd he hkk
              · exact ih2 k hkt mp hmp
          · intro k hk hfk
            by_cases hkk : k = k0
            · subst hkk
              exact ⟨cp, hc, Or.inl hFnone⟩
            · rcases List.mem_cons.mp hk with he | hkt
              · exact absurd he hkk
              · exact ih3 k hkt hfk
        · -- raw-input file readable: build (and possibly persist)
          have hFraw : lookupA cp F = some (FData.raw d) := by
            rw [← hcpF, hcpfs]
          have hbval : bval b c F f k0 = some (b d) := by
            simp [bval, hfk0, hc, hFraw]
          have hrep1 : s1.cache =
              ks.map fun j => (j, if j = k0 then some (b d) else f j) := by
            rw [hcache1, hrep, setA_map_of_mem _ hndks hk0ks]
          have hbvalc : ∀ j, j ≠ k0 →
              bval b c F (fun j' => if j' = k0 then some (b d) else f j') j =
                bval b c F f j :=
            fun j hj => bval_congr (by simp [hj])
          have hbwc : ∀ j, j ≠ k0 →
              bwrites b m c F (fun j' => if j' = k0 then some (b d) else f j') j =
                bwrites b m c F f j :=
            fun j hj => bwrites_congr2 (by simp [hj])
          have hfc : ∀ j, j ≠ k0 →
              (fun j' => if j' = k0 then some (b d) else f j') j = f j :=
            fun j hj => by simp [hj]
          rcases hcase2 with ⟨mp0, hm0, hext0, hfs1, hevs1⟩ | ⟨hfs1, hevs1, hmcase⟩
          · -- persisted: write at mp0
            have hbw : bwrites b m c F f k0 = some (some (b d)) := by
              simp [bwrites, hfk0, hc, hFraw, hm0, hext0]
            have hstable1 : ∀ k' cp', lookupA k' c = some cp' →
                lookupA cp' s1.fs = lookupA cp' F := by
              intro k' cp' hc'
              rw [hfs1, lookupA_setA_ne _ _ (hdisj k0 k' mp0 cp' hm0 hc'),
                hstable k' cp' hc']
            obtain ⟨ih1, ih2, ih3⟩ := ih hndl' hrep1 hsub' hstable1 h
            refine ⟨?_, ?_, ?_⟩
            · rw [ih1]
              apply List.map_congr_left
              intro j _
              by_cases hjk : j = k0
              · subst hjk
                simp [hk0t, hbval]
              · rw [hbvalc j hjk]
                simp [List.mem_cons, hjk]
            · intro k hk mp hmp
              by_cases hkk : k = k0
              · subst hkk
                rw [hm0] at hmp
                injection hmp with hmp1
                injection hmp1 with hmp2
                subst hmp2
                rw [hbw]
                have hmem1 : lookupA mp0 s1.fs =
                    some (FData.pkl (some (b d))) := by
                  rw [hfs1, lookupA_setA_self]
                have hpres : lookupA mp0 s'.fs = lookupA mp0 s1.fs := by
                  apply buildLoop_fs_pres h
                  intro j hj mpj hmj _ hje
                  subst hje
                  exact hk0t ((hinj j k mpj hmj hm0) ▸ hj)
                rw [hpres, hmem1]
              · rcases List.mem_cons.mp hk with he | hkt
                · exact absurd he hkk
                · have := ih2 k hkt mp hmp
                  rw [hbwc k hkk] at this
                  rw [this]
                  rcases hbwk : bwrites b m c F f k with _ | v
                  · show lookupA mp s1.fs = lookupA mp s.fs
                    have hmpne : mp ≠ mp0 := by
                      intro hje
                      subst hje
                      exact hk0t ((hinj k0 k mp hm0 hmp) ▸ hkt)
                    rw [hfs1, lookupA_setA_ne _ _ (fun e => hmpne e.symm)]
                  · rfl
            · intro k hk hfk
              by_cases hkk : k = k0
              · subst hkk
                exact ⟨cp, hc, Or.inr ⟨d, hFraw⟩⟩
              · rcases List.mem_cons.mp hk with he | hkt
                · exact absurd he hkk
                · exact ih3 k hkt (by simp [hkk, hfk])
          · -- not persisted: no write
            have hbw : bwrites b m c F f k0 = none := by
              rcases hmcase with hmn | ⟨mp0, hm0, hext0⟩
              · simp [bwrites, hfk0, hc, hFraw, hmn]
              · simp [bwrites, hfk0, hc, hFraw, hm0, hext0]
            have hstable1 : ∀ k' cp', lookupA k' c = some cp' →
                lookupA cp' s1.fs = lookupA cp' F := by
              intro k' cp' hc'
              rw [hfs1, hstable k' cp' hc']
            obtain ⟨ih1, ih2, ih3⟩ := ih hndl' hrep1 hsub' hstable1 h
            refine ⟨?_, ?_, ?_⟩
            · rw [ih1]
              apply List.map_congr_left
              intro j _
              by_cases hjk : j = k0
              · subst hjk
                simp [hk0t, hbval]
              · rw [hbvalc j hjk]
                simp [List.mem_cons, hjk]
            · intro k hk mp hmp
              by_cases hkk : k = k0
              · subst hkk
                rw [hbw]
                have hpres : lookupA mp s'.fs = lookupA mp s1.fs := by
                  apply buildLoop_fs_pres h
                  intro j hj mpj hmj _ hje
                  subst hje
                  exact hk0t ((hinj j k mpj hmj hmp) ▸ hj)
                rw [hpres, hfs1]
              · rcases List.mem_cons.mp hk with he | hkt
                · exact absurd he hkk
                · have := ih2 k hkt mp hmp
                  rw [hbwc k hkk] at this
                  rw [this, hfs1]
            · intro k hk hfk
              by_cases hkk : k = k0
              · subst hkk
                exact ⟨cp, hc, Or.inr ⟨d, hFraw⟩⟩
              · rcases List.mem_cons.mp hk with he | hkt
                · exact absurd he hkk
                · exact ih3 k hkt (by simp [hkk, hfk])

/-- A build pass in which every category either has a cached value, or misses
with its raw-input file absent, or misses with a readable raw-input file but
a persisted path failing the extension gate, succeeds without writing any
file: the filesystem is unchanged and no dump event is emitted, while missed
categories are rebuilt in memory (`bval`). -/
theorem buildLoop_noop {b : RawDataset → Artifact}
    {m : List (String × Option String)} {c : List (String × String)}
    {ks l : List String} {s : St} {f : String → Option Artifact}
    (hndks : ks.Nodup) (hndl : l.Nodup)
    (hrep : s.cache = ks.map fun j => (j, f j))
    (hsub : ∀ k ∈ l, k ∈ ks)
    (hgood : ∀ k ∈ l, (∃ a, f k = some a) ∨
      (f k = none ∧ ∃ cp, lookupA k c = some cp ∧
        (lookupA cp s.fs = none ∨
         ∃ d mp, lookupA cp s.fs = some (FData.raw d) ∧
           lookupA k m = some (some mp) ∧ pyExt mp ≠ ".pkl"))) :
    ∃ s', buildLoop b m c s l = .ok s' ∧ s'.fs = s.fs ∧
      s'.cache =
        (ks.map fun j => (j, if j ∈ l then bval b c s.fs f j else f j)) ∧
      ∃ lev, s'.evs = s.evs ++ lev ∧ ∀ e ∈ lev, ∀ k q, e ≠ Ev.dump k q := by
  induction l generalizing s f with
  | nil =>
    refine ⟨s, rfl, rfl, ?_, [], by simp, by simp⟩
    rw [hrep]
    simp
  | cons k0 t ih =>
    have hndl' : t.Nodup := (List.nodup_cons.mp hndl).2
    have hk0t : k0 ∉ t := (List.nodup_cons.mp hndl).1
    have hk0ks : k0 ∈ ks := hsub k0 (List.mem_cons_self k0 t)
    have hsub' : ∀ k ∈ t, k ∈ ks :=
      fun j hj => hsub j (List.mem_cons.mpr (Or.inr hj))
    have hv0 : lookupA k0 s.cache = some (f k0) := by
      rw [hrep]
      exact lookupA_map_self f hk0ks
    rcases hgood k0 (List.mem_cons_self k0 t) with ⟨a, ha⟩ | ⟨hfk0, cp, hc, hcase⟩
    · -- cached value: the step skips
      have hstep : buildStep b m c s k0 = .ok s := buildStep_skip (by rw [hv0, ha])
      obtain ⟨s', hloop, hfs, hcache, lev, hevs, hlev⟩ := ih hndl' hrep hsub'
        (fun j hj => hgood j (List.mem_cons.mpr (Or.inr hj)))
      refine ⟨s', by simp only [buildLoop, hstep]; exact hloop, hfs, ?_,
        lev, hevs, hlev⟩
      rw [hcache]
      apply List.map_congr_left
      intro j _
      by_cases hjk : j = k0
      · subst hjk
        simp [hk0t, bval, ha]
      · simp [List.mem_cons, hjk]
    · rcases hcase with hcpfs | ⟨d, mp, hcpfs, hm, hext⟩
      · -- miss with absent raw file: the step skips
        have hstep : buildStep b m c s k0 = .ok s :=
          buildStep_miss_absent (by rw [hv0, hfk0]) hc hcpfs
        obtain ⟨s', hloop, hfs, hcache, lev, hevs, hlev⟩ := ih hndl' hrep hsub'
          (fun j hj => hgood j (List.mem_cons.mpr (Or.inr hj)))
        refine ⟨s', by simp only [buildLoop, hstep]; exact hloop, hfs, ?_,
          lev, hevs, hlev⟩
        rw [hcache]
        apply List.map_congr_left
        intro j _
        by_cases hjk : j = k0
        · subst hjk
          simp [hk0t, bval, hfk0, hc, hcpfs]
        · simp [List.mem_cons, hjk]
      · -- miss with readable raw file but gated extension: build, no write
        have hstep := @buildStep_miss_raw_nopkl b m c s k0 cp mp d
          (by rw [hv0, hfk0]) hc hcpfs hm hext
        have hrep1 : ({ s with
            cache := setA k0 (some (b d)) s.cache,
            evs := s.evs ++ [Ev.rawRead k0 cp, Ev.build k0] } : St).cache =
            ks.map fun j => (j, if j = k0 then some (b d) else f j) := by
          show setA k0 (some (b d)) s.cache = _
          rw [hrep, setA_map_of_mem _ hndks hk0ks]
        obtain ⟨s', hloop, hfs, hcache, lev, hevs, hlev⟩ :=
          ih hndl' hrep1 hsub' (by
            intro j hj
            have hj0 : j ≠ k0 := fun e => hk0t (e ▸ hj)
            have hgj := hgood j (List.mem_cons.mpr (Or.inr hj))
            simpa [hj0] using hgj)
        have hfs' : s'.fs = s.fs := hfs
        have hcache' : s'.cache = ks.map fun j =>
            (j, if j ∈ t then
              bval b c s.fs (fun j' => if j' = k0 then some (b d) else f j') j
            else if j = k0 then some (b d) else f j) := hcache
        have hevs' : s'.evs =
            (s.evs ++ [Ev.rawRead k0 cp, Ev.build k0]) ++ lev := hevs
        refine ⟨s', by simp only [buildLoop, hstep]; exact hloop, hfs', ?_,
          Ev.rawRead k0 cp :: Ev.build k0 :: lev, ?_, ?_⟩
        · rw [hcache']
          apply List.map_congr_left
          intro j _
          by_cases hjk : j = k0
          · subst hjk
            simp [hk0t, bval, hfk0, hc, hcpfs]
          · have hb2 : bval b c s.fs
                (fun j' => if j' = k0 then some (b d) else f j') j =
                bval b c s.fs f j := bval_congr (by simp [hjk])
            rw [hb2]
            simp [List.mem_cons, hjk]
        · rw [hevs']
          simp
        · intro e he k q
          rcases List.mem_cons.mp he with rfl | he'
          · simp
          · rcases List.mem_cons.mp he' with rfl | he''
            · simp
            · exact hlev e he'' k q

/-- C8 (counterexample): two categories sharing one persisted path break
idempotence: the first run builds both and the second write wins, so the
second run loads that last artifact for both categories and its Artifact
Cache differs from the first run's, even though the only filesystem changes
between runs are the first run's own writes. -/
theorem claim_C8_counterexample :
    (main demoBuild [("a", some "x.pkl"), ("b", some "x.pkl")]
        [("a", "ra.raw"), ("b", "rb.raw")] false
        [("ra.raw", FData.raw ⟨1⟩), ("rb.raw", FData.raw ⟨2⟩)]).result =
      .ok ([("a", some ⟨1⟩), ("b", some ⟨2⟩)],
        [("ra.raw", FData.raw ⟨1⟩), ("rb.raw", FData.raw ⟨2⟩),
         ("x.pkl", FData.pkl (some ⟨2⟩))]) ∧
    (main demoBuild [("a", some "x.pkl"), ("b", some "x.pkl")]
        [("a", "ra.raw"), ("b", "rb.raw")] false
        [("ra.raw", FData.raw ⟨1⟩), ("rb.raw", FData.raw ⟨2⟩),
         ("x.pkl", FData.pkl (some ⟨2⟩))]).result =
      .ok ([("a", some ⟨2⟩), ("b", some ⟨2⟩)],
        [("ra.raw", FData.raw ⟨1⟩), ("rb.raw", FData.raw ⟨2⟩),
         ("x.pkl", FData.pkl (some ⟨2⟩))]) ∧
    ([("a", some ⟨1⟩), ("b", some ⟨2⟩)] :
        List (String × Option Artifact)) ≠
      [("a", some ⟨2⟩), ("b", some ⟨2⟩)] := by
  refine ⟨by decide, by decide, by decide⟩

/-- C8 (amended): running the orchestrator twice with `rereduce=false`, with
no filesystem changes between the runs other than the first run's own writes,
yields identical Artifact Cache contents and identical filesystems, and the
second run performs no file writes — provided the configured persisted paths
are injective across categories and disjoint from the raw-input paths (the
counterexample shows the law fails when two categories share a persisted
path). -/
theorem claim_C8 (b : RawDataset → Artifact) (m : List (String × Option String))
    (c : List (String × String)) (fs0 fs1 : Fs)
    (cache1 : List (String × Option Artifact))
    (hinj : ∀ k k' p, lookupA k m = some (some p) →
      lookupA k' m = some (some p) → k = k')
    (hdisj : ∀ k k' p cp, lookupA k m = some (some p) →
      lookupA k' c = some cp → p ≠ cp)
    (hok1 : (main b m c false fs0).result = .ok (cache1, fs1)) :
    (main b m c false fs1).result = .ok (cache1, fs1) ∧
    ∀ k q, Ev.dump k q ∉ (main b m c false fs1).evs := by
  rcases main_cases b m c false fs0 with
    ⟨f, hl, hmain⟩ |
    ⟨s1, hl, ⟨f, hb, hmain⟩ | ⟨s2, hb, ⟨_, hmain⟩ | ⟨hcontra, _⟩⟩⟩
  · rw [show (main b m c false fs0).result = .error f.2 by rw [hmain]] at hok1
    cases hok1
  · rw [show (main b m c false fs0).result = .error f.2 by rw [hmain]] at hok1
    cases hok1
  · rw [show (main b m c false fs0).result = .ok (s2.cache, s2.fs) by
      rw [hmain]] at hok1
    injection hok1 with h'
    injection h' with hcc hff
    subst hcc
    subst hff
    -- run 1: load-pass characterization
    have hks : (sortedKeys m).Nodup := sortedKeys_nodup m
    obtain ⟨hfs1eq, hc1, _⟩ := loadLoop_ok_char hl
    have hrep1 : s1.cache =
        (sortedKeys m).map fun j => (j, loadVal m fs0 j) := by
      rw [hc1]
      rfl
    have hstable0 : ∀ k' cp, lookupA k' c = some cp →
        lookupA cp s1.fs = lookupA cp fs0 := by
      intro k' cp _
      rw [hfs1eq]
    -- run 1: build-pass characterization
    obtain ⟨hrun1cache, hrun1fs, hrun1miss⟩ :=
      buildLoop_char hdisj hinj hks hks hrep1 (fun k hk => hk) hstable0 hb
    have hM : ∀ k ∈ sortedKeys m, ∃ mp, lookupA k m = some (some mp) := by
      intro k hk
      obtain ⟨mf, hmf, _⟩ := loadLoop_ok_LoadOk hl k hk
      exact ⟨mf, hmf⟩
    have hcpstable : ∀ k' cp, lookupA k' c = some cp →
        lookupA cp s2.fs = lookupA cp fs0 := by
      intro k' cp hc'
      have h2 : lookupA cp s2.fs = lookupA cp s1.fs :=
        buildLoop_fs_pres hb
          (fun k _ mp hm _ => hdisj k k' mp cp hm hc')
      rw [h2, hfs1eq]
    -- run 2: the load pass succeeds
    have hLO2 : ∀ k ∈ sortedKeys m, LoadOk m s2.fs k := by
      intro k hk
      obtain ⟨mf, hmf, hpk⟩ := loadLoop_ok_LoadOk hl k hk
      refine ⟨mf, hmf, ?_⟩
      intro hext fd hfd
      have hchar := hrun1fs k hk mf hmf
      rcases hbw : bwrites b m c fs0 (loadVal m fs0) k with _ | v
      · rw [hbw] at hchar
        rw [hchar] at hfd
        rw [hfs1eq] at hfd
        exact hpk hext fd hfd
      · rw [hbw] at hchar
        rw [hchar] at hfd
        injection hfd with hfd'
        exact ⟨v, hfd'.symm⟩
    obtain ⟨s1', hl'⟩ :=
      @loadLoop_ok_of_LoadOk m ⟨s2.fs, [], []⟩ (sortedKeys m) hLO2
    obtain ⟨hfs1'eq, hc1', _⟩ := loadLoop_ok_char hl'
    have hfs2' : s1'.fs = s2.fs := hfs1'eq
    have hrep1' : s1'.cache =
        (sortedKeys m).map fun j => (j, loadVal m s2.fs j) := by
      rw [hc1']
      rfl
    -- how run 2's loaded values relate to run 1's
    have hf1f0 : ∀ k ∈ sortedKeys m,
        (bwrites b m c fs0 (loadVal m fs0) k = none →
          loadVal m s2.fs k = loadVal m fs0 k) ∧
        ∀ v, bwrites b m c fs0 (loadVal m fs0) k = some v →
          loadVal m s2.fs k = v := by
      intro k hk
      obtain ⟨mp, hmp⟩ := hM k hk
      have hchar := hrun1fs k hk mp hmp
      constructor
      · intro hbw
        rw [hbw] at hchar
        rw [hfs1eq] at hchar
        simp only [loadVal, hmp]
        rw [hchar]
      · intro v hbw
        rw [hbw] at hchar
        obtain ⟨hf0, cp, d, mp', hc', hF', hm', hext', hveq⟩ :=
          bwrites_some_inv hbw
        rw [hmp] at hm'
        injection hm' with hm'1
        injection hm'1 with hm'2
        subst hm'2
        simp only [loadVal, hmp, hext', if_true, hchar]
    -- run 2: the build pass is a no-op on disk
    have hgood : ∀ k ∈ sortedKeys m,
        (∃ a, loadVal m s2.fs k = some a) ∨
        (loadVal m s2.fs k = none ∧ ∃ cp, lookupA k c = some cp ∧
          (lookupA cp s1'.fs = none ∨
           ∃ d mp, lookupA cp s1'.fs = some (FData.raw d) ∧
             lookupA k m = some (some mp) ∧ pyExt mp ≠ ".pkl")) := by
      intro k hk
      rcases hbw : bwrites b m c fs0 (loadVal m fs0) k with _ | v
      · have hsame : loadVal m s2.fs k = loadVal m fs0 k :=
          (hf1f0 k hk).1 hbw
        rcases hf0 : loadVal m fs0 k with _ | a
        · right
          refine ⟨by rw [hsame, hf0], ?_⟩
          obtain ⟨cp, hc', hFcase⟩ := hrun1miss k hk hf0
          refine ⟨cp, hc', ?_⟩
          have hcpfs1' : lookupA cp s1'.fs = lookupA cp fs0 := by
            rw [hfs2']
            exact hcpstable k cp hc'
          rcases hFcase with hnone | ⟨d, hraw⟩
          · exact Or.inl (by rw [hcpfs1', hnone])
          · obtain ⟨mp, hmp⟩ := hM k hk
            have hext : pyExt mp ≠ ".pkl" :=
              bwrites_none_raw hbw hf0 hc' hraw hmp
            exact Or.inr ⟨d, mp, by rw [hcpfs1', hraw], hmp, hext⟩
        · exact Or.inl ⟨a, by rw [hsame, hf0]⟩
      · obtain ⟨hf0, cp, d, mp', hc', hF', hm', hext', hveq⟩ :=
          bwrites_some_inv hbw
        subst hveq
        exact Or.inl ⟨b d, (hf1f0 k hk).2 _ hbw⟩
    obtain ⟨s2', hloop', hfs', hcache', lev, hevs', hlev'⟩ :=
      buildLoop_noop hks hks hrep1' (fun k hk => hk) hgood
    -- assemble run 2
    rcases main_cases b m c false s2.fs with
      ⟨f2, hl2, hmain2⟩ |
      ⟨s1'', hl2, ⟨f2, hb2, hmain2⟩ | ⟨s2'', hb2, ⟨_, hmain2⟩ | ⟨hcontra2, _⟩⟩⟩
    · rw [hl'] at hl2
      cases hl2
    · rw [hl'] at hl2
      injection hl2 with he
      subst he
      rw [hloop'] at hb2
      cases hb2
    · rw [hl'] at hl2
      injection hl2 with he
      subst he
      rw [hloop'] at hb2
      injection hb2 with he2
      subst he2
      have hres2 : (main b m c false s2.fs).result = .ok (s2'.cache, s2'.fs) := by
        rw [hmain2]
      have hevs2 : (main b m c false s2.fs).evs = s2'.evs := by
        rw [hmain2]
      constructor
      · rw [hres2]
        have hfseq : s2'.fs = s2.fs := by rw [hfs', hfs2']
        have hcacheeq : s2'.cache = s2.cache := by
          rw [hcache', hrun1cache]
          apply List.map_congr_left
          intro j hj
          simp only [hj, if_true]
          have hgoal : bval b c s1'.fs (loadVal m s2.fs) j =
              bval b c fs0 (loadVal m fs0) j := by
            rcases hbw : bwrites b m c fs0 (loadVal m fs0) j
              with _ | v
            · have hsame : loadVal m s2.fs j = loadVal m fs0 j :=
                (hf1f0 j hj).1 hbw
              rcases hf0 : loadVal m fs0 j with _ | a
              · have hf1 : loadVal m s2.fs j = none := by rw [hsame, hf0]
                rcases hcj : lookupA j c with _ | cp
                · simp only [bval, hf1, hf0, hcj]
                · have hcp2 : lookupA cp s1'.fs = lookupA cp fs0 := by
                    rw [hfs2']
                    exact hcpstable j cp hcj
                  simp only [bval, hf1, hf0, hcj, hcp2]
              · have hf1 : loadVal m s2.fs j = some a := by rw [hsame, hf0]
                simp only [bval, hf1, hf0]
            · obtain ⟨hf0, cp, d, mp', hc', hF', hm', hext', hveq⟩ :=
                bwrites_some_inv hbw
              subst hveq
              have hf1 : loadVal m s2.fs j = some (b d) := (hf1f0 j hj).2 _ hbw
              simp only [bval, hf1, hf0, hc', hF']
          rw [hgoal]
        rw [hfseq, hcacheeq]
      · intro k q hmem
        rw [hevs2, hevs'] at hmem
        rcases List.mem_append.mp hmem with hm1 | hm2
        · obtain ⟨_, _, l1, hle1, hl1⟩ := loadLoop_ok_char hl'
          rw [hle1] at hm1
          simp only [List.nil_append] at hm1
          obtain ⟨_, k', p', heq, _⟩ := hl1 _ hm1
          cases heq
        · exact hlev' _ hm2 k q rfl
    · cases hcontra2
  · cases hcontra

/-- C8 (witness): the amended idempotence law at a concrete configuration:
rerunning with `rereduce=false` on the filesystem produced by a first run
reproduces the same Artifact Cache and writes nothing. -/
theorem claim_C8_witness :
    ((main demoBuild [("bias", some "m.pkl")] [("bias", "c.raw")] false
        [("c.raw", FData.raw ⟨7⟩), ("m.pkl", FData.pkl (some ⟨7⟩))]).result =
      .ok ([("bias", some ⟨7⟩)],
        [("c.raw", FData.raw ⟨7⟩), ("m.pkl", FData.pkl (some ⟨7⟩))]) ∧
    ∀ k q, Ev.dump k q ∉ (main demoBuild [("bias", some "m.pkl")]
        [("bias", "c.raw")] false
        [("c.raw", FData.raw ⟨7⟩), ("m.pkl", FData.pkl (some ⟨7⟩))]).evs) :=
  claim_C8 demoBuild [("bias", some "m.pkl")] [("bias", "c.raw")]
    [("c.raw", FData.raw ⟨7⟩)]
    [("c.raw", FData.raw ⟨7⟩), ("m.pkl", FData.pkl (some ⟨7⟩))]
    [("bias", some ⟨7⟩)]
    (by
      intro k k' p h1 h2
      simp only [lookupA] at h1 h2
      split at h1
      · rename_i hbk
        split at h2
        · rename_i hbk'
          rw [← hbk, ← hbk']
        · cases h2
      · cases h1)
    (by
      intro k k' p cp h1 h2
      simp only [lookupA] at h1 h2
      split at h1
      · split at h2
        · injection h1 with h1a
          injection h1a with h1b
          injection h2 with h2a
          rw [← h1b, ← h2a]
          decide
        · cases h2
      · cases h1)
    (by decide)

end MainUtils
